import Mathlib

/-!
Shallow embedding of the graph-coloring program
(`Incidence_Degree_Ordering_(IDO).cpp`): the `Vertex` data is split into a
static `Graph` part (ids 1..N, adjacency lists, stored degrees) and a mutable
`ColorState` part (the `color` and `heuristic_value` fields of every vertex).
The three drivers `IDO_coloring`, `DSATUR_coloring` (both via
`generic_greedy_coloring`) and `RLF_coloring` are translated from the C++
source.  The `while` loops become fuel recursion with fuel chosen as in the
source a-priori bounds (the number of vertices); the fuel is provably
sufficient.  `std::sort` (whose order on tied keys the C++ standard leaves
unspecified) is modelled in two ways: `generic_greedy_coloring` fixes one
legitimate outcome, the stable `List.insertionSort` with the same comparator,
while `generic_greedy_on` takes the sorted list as a parameter, so that
properties sensitive to the order of tied degrees are quantified over every
list a conforming `std::sort` may produce (`SortedByDeg`).  In addition to
what the C++ functions return, the embedded
drivers expose the final state, the assignment trace (which vertex received
which color, in order), the palette, and a flag `warned` that records whether
one of the two "internal consistency" warning branches was taken.
-/

namespace GraphColoring

/-- The static part of the C++ `std::vector<Vertex>`: vertex count, the
`degree` field and the `neighbors` field of each vertex (slot 0 unused,
vertices are 1..N as in the source). -/
structure Graph where
  N : Nat
  deg : Nat → Nat
  nbrs : Nat → List Nat

/-- The mutable per-vertex fields: `color` (-1 means uncolored) and
`heuristic_value`. -/
structure ColorState where
  color : Nat → Int
  heur : Nat → Int

/-- The algorithm name string passed to `generic_greedy_coloring`
(`"DSATUR"` vs. anything else, which the source treats as IDO). -/
inductive Alg where
  | IDO
  | DSATUR
deriving DecidableEq, Repr

/-- Write the `color` field of one vertex. -/
def setColor (s : ColorState) (v : Nat) (c : Int) : ColorState :=
  { s with color := Function.update s.color v c }

/-- Write the `heuristic_value` field of one vertex. -/
def setHeur (s : ColorState) (v : Nat) (h : Int) : ColorState :=
  { s with heur := Function.update s.heur v h }

/-- The vertex ids 1..N, in the iteration order `for (i = 1; i <= N; ++i)`
used throughout the source. -/
def vertexList (G : Graph) : List Nat :=
  List.range' 1 G.N

/-- C++ `isColorValid`: a color is valid for a vertex iff no neighbor
currently holds that color. -/
def isColorValid (G : Graph) (s : ColorState) (v : Nat) (c : Int) : Bool :=
  (G.nbrs v).all (fun nb => s.color nb != c)

/-- The heuristic computed in the selection scan of
`generic_greedy_coloring`: for DSATUR the size of the `std::set` of distinct
neighbor colors, for IDO the count of colored neighbors. -/
def computeHeuristic (alg : Alg) (G : Graph) (s : ColorState) (v : Nat) : Int :=
  match alg with
  | .DSATUR => ((((G.nbrs v).filter (fun nb => s.color nb != -1)).map s.color).dedup).length
  | .IDO => ((G.nbrs v).filter (fun nb => s.color nb != -1)).length

/-- The comparison of the selection scan of `generic_greedy_coloring`: the
scanned vertex `v` replaces the current best vertex when there is none yet,
or when it wins strictly on stored heuristic value, or ties on it with
strictly larger degree.  The heuristic values are read from the state, as the
C++ reads the `heuristic_value` fields. -/
def pickBest (G : Graph) (s : ColorState) (v : Nat) : Option Nat → Option Nat
  | none => some v
  | some b =>
    if s.heur v > s.heur b ∨ (s.heur v = s.heur b ∧ G.deg v > G.deg b)
    then some v else some b

/-- The selection scan of the main loop of `generic_greedy_coloring`: for
each vertex of the uncolored list, in order, compute and store its heuristic
value, then compare it against the current best. -/
def scanLoop (alg : Alg) (G : Graph) :
    List Nat → ColorState → Option Nat → Option Nat × ColorState
  | [], s, best => (best, s)
  | v :: rest, s, best =>
    let s' := setHeur s v (computeHeuristic alg G s v)
    scanLoop alg G rest s' (pickBest G s' v best)

/-- The first-fit scan over the palette in Step 4 of
`generic_greedy_coloring`: the first palette color that `isColorValid`
accepts, or `none`. -/
def firstFitColor (G : Graph) (s : ColorState) (v : Nat) : List Int → Option Int
  | [] => none
  | c :: cs => if isColorValid G s v c then some c else firstFitColor G s v cs

/-- What an embedded driver returns: the C++ return value `count` plus the
final vertex state, the palette, the assignment trace, and whether the
warning branch was taken. -/
structure GreedyResult where
  count : Nat
  state : ColorState
  palette : List Int
  trace : List (Nat × Int)
  warned : Bool

/-- The main `while (!uncolored_vertices_ptrs.empty())` loop of
`generic_greedy_coloring`, with fuel.  Each iteration scans for the best
vertex, first-fit colors it (appending a brand-new palette color when no
existing one fits), and removes it from the uncolored list. -/
def greedyLoop (alg : Alg) (G : Graph) :
    Nat → ColorState → List Nat → List Int → Nat → List (Nat × Int) → GreedyResult
  | 0, s, _, palette, next, trace => ⟨next, s, palette, trace, false⟩
  | fuel + 1, s, uncolored, palette, next, trace =>
    if uncolored.isEmpty then ⟨next, s, palette, trace, false⟩
    else
      match scanLoop alg G uncolored s none with
      | (none, s') => ⟨next, s', palette, trace, true⟩
      | (some b, s') =>
        match firstFitColor G s' b palette with
        | some c =>
          greedyLoop alg G fuel (setColor s' b c)
            (uncolored.filter (fun x => x != b)) palette next (trace ++ [(b, c)])
        | none =>
          greedyLoop alg G fuel (setColor s' b (next : Int))
            (uncolored.filter (fun x => x != b)) (palette ++ [(next : Int)])
            (next + 1) (trace ++ [(b, (next : Int))])

/-- The comparator handed to `std::sort`: degree, descending. -/
def degGE (G : Graph) (a b : Nat) : Prop :=
  G.deg b ≤ G.deg a

instance (G : Graph) : DecidableRel (degGE G) := fun a b => Nat.decLe _ _

instance (G : Graph) : IsTotal Nat (degGE G) :=
  ⟨fun a b => Nat.le_total (G.deg b) (G.deg a)⟩

instance (G : Graph) : IsTrans Nat (degGE G) :=
  ⟨fun _ _ _ hab hbc => Nat.le_trans hbc hab⟩

/-- A list is a legitimate result of the `std::sort` call of
`generic_greedy_coloring`: a permutation of the vertex list that is sorted by
degree descending.  The C++ standard guarantees nothing more — in particular
the relative order of vertices with equal degree is unspecified — so any such
list may be the one the program actually continues with. -/
def SortedByDeg (G : Graph) (l : List Nat) : Prop :=
  l.Perm (vertexList G) ∧ l.Sorted (degGE G)

instance (G : Graph) (l : List Nat) : Decidable (SortedByDeg G l) :=
  inferInstanceAs (Decidable (l.Perm (vertexList G) ∧ l.Sorted (degGE G)))

/-- Reset the colors of vertices 1..N to -1 (the loop at the top of each
driver). -/
def resetColors (N : Nat) (s : ColorState) : ColorState :=
  { s with color := fun i => if 1 ≤ i ∧ i ≤ N then -1 else s.color i }

/-- C++ `generic_greedy_coloring` after its `std::sort` call, as a function
of the sorted list the sort produced: color the front vertex with color 0,
then run the main loop (empty graph: return 0 immediately).  Everything the
function does after the sort depends only on the sorted list, so running this
on any list satisfying `SortedByDeg` captures a possible behavior of the
program. -/
def generic_greedy_on (alg : Alg) (G : Graph) (s0 : ColorState) :
    List Nat → GreedyResult
  | [] => ⟨0, resetColors G.N s0, [], [], false⟩
  | init :: restSorted =>
    greedyLoop alg G G.N (setColor (resetColors G.N s0) init 0)
      ((init :: restSorted).filter (fun x => x != init)) [0] 1 [(init, 0)]

/-- C++ `generic_greedy_coloring`: reset, build the uncolored list, return 0
on the empty graph, sort by degree descending, color the front vertex with
color 0, then run the main loop.  (`std::sort` leaves the order of tied
degrees unspecified; this definition fixes one legitimate outcome, the stable
insertion sort with the same comparator — `generic_greedy_on` above covers
the other outcomes.) -/
def generic_greedy_coloring (alg : Alg) (G : Graph) (s0 : ColorState) : GreedyResult :=
  let s1 := resetColors G.N s0
  match List.insertionSort (degGE G) (vertexList G) with
  | [] => ⟨0, s1, [], [], false⟩
  | init :: restSorted =>
    greedyLoop alg G G.N (setColor s1 init 0)
      ((init :: restSorted).filter (fun x => x != init)) [0] 1 [(init, 0)]

/-- C++ `IDO_coloring`. -/
def IDO_coloring (G : Graph) (s0 : ColorState) : GreedyResult :=
  generic_greedy_coloring .IDO G s0

/-- C++ `DSATUR_coloring`. -/
def DSATUR_coloring (G : Graph) (s0 : ColorState) : GreedyResult :=
  generic_greedy_coloring .DSATUR G s0

/-- The scan inside C++ `find_max_degree_uncolored_vertex`: keep the first
uncolored vertex, replace it only on strictly larger degree. -/
def findMaxDegAux (G : Graph) (s : ColorState) : List Nat → Option Nat → Option Nat
  | [], best => best
  | i :: rest, best =>
    if s.color i = -1 then
      match best with
      | none => findMaxDegAux G s rest (some i)
      | some b =>
        if G.deg i > G.deg b then findMaxDegAux G s rest (some i)
        else findMaxDegAux G s rest (some b)
    else findMaxDegAux G s rest best

/-- C++ `find_max_degree_uncolored_vertex`. -/
def find_max_degree_uncolored_vertex (G : Graph) (s : ColorState) : Option Nat :=
  findMaxDegAux G s (vertexList G) none

/-- Mark each element of `l` forbidden (`forbidden_for_current_color[x] = true`). -/
def addForbidden (forb : Nat → Bool) (l : List Nat) : Nat → Bool :=
  l.foldl (fun f nb => Function.update f nb true) forb

/-- The comparison of the RLF candidate scan: the scanned vertex `k` (whose
just-stored heuristic value is read back from the state) replaces the current
candidate when there is none, or when it wins strictly on heuristic
(`max_adj_in_U` is tracked alongside the candidate), or ties on it with
strictly larger degree. -/
def pickCand (G : Graph) (s : ColorState) (k : Nat) :
    Option (Nat × Int) → Option (Nat × Int)
  | none => some (k, s.heur k)
  | some (b, maxAdj) =>
    if s.heur k > maxAdj ∨ (s.heur k = maxAdj ∧ G.deg k > G.deg b)
    then some (k, s.heur k) else some (b, maxAdj)

/-- The candidate scan of the RLF inner loop: over k = 1..N, for each
uncolored non-forbidden vertex store the count of its neighbors in the
forbidden set as its heuristic value, then compare it against the current
candidate. -/
def rlfScan (G : Graph) (forb : Nat → Bool) :
    List Nat → ColorState → Option (Nat × Int) → Option (Nat × Int) × ColorState
  | [], s, cand => (cand, s)
  | k :: rest, s, cand =>
    if s.color k = -1 ∧ forb k = false then
      let s' := setHeur s k (((G.nbrs k).filter (fun nb => forb nb)).length)
      rlfScan G forb rest s' (pickCand G s' k cand)
    else rlfScan G forb rest s cand

/-- The RLF inner `while (true)` loop, with fuel: repeatedly pick the best
candidate, give it the active color, and add its neighbors to the forbidden
set; stop when no candidate remains. -/
def rlfInner (G : Graph) :
    Nat → ColorState → (Nat → Bool) → Int → Nat → List (Nat × Int) →
      ColorState × (Nat → Bool) × Nat × List (Nat × Int)
  | 0, s, forb, _, total, trace => (s, forb, total, trace)
  | fuel + 1, s, forb, curColor, total, trace =>
    match rlfScan G forb (vertexList G) s none with
    | (none, s') => (s', forb, total, trace)
    | (some (k, _), s') =>
      rlfInner G fuel (setColor s' k curColor) (addForbidden forb (G.nbrs k))
        curColor (total + 1) (trace ++ [(k, curColor)])

/-- What the embedded RLF driver returns: the C++ return value plus final
state, trace and warning flag. -/
structure RLFResult where
  count : Nat
  state : ColorState
  trace : List (Nat × Int)
  warned : Bool

/-- The RLF outer loop `while (total_colored_vertices < num_vertices)`, with
fuel: seed a new class with the max-degree uncolored vertex, run the inner
loop, then move to the next color. -/
def rlfOuter (G : Graph) :
    Nat → ColorState → Nat → Nat → List (Nat × Int) → RLFResult
  | 0, s, curColor, _, trace => ⟨curColor, s, trace, false⟩
  | fuel + 1, s, curColor, total, trace =>
    if total < G.N then
      match find_max_degree_uncolored_vertex G s with
      | none => ⟨curColor, s, trace, true⟩
      | some vi =>
        match rlfInner G (G.N + 1) (setColor s vi (curColor : Int))
            (addForbidden (fun _ => false) (G.nbrs vi)) (curColor : Int)
            (total + 1) (trace ++ [(vi, (curColor : Int))]) with
        | (s2, _, total2, trace2) => rlfOuter G fuel s2 (curColor + 1) total2 trace2
    else ⟨curColor, s, trace, false⟩

/-- C++ `RLF_coloring`: reset all colors, then run the outer loop from color
0 with nothing colored. -/
def RLF_coloring (G : Graph) (s0 : ColorState) : RLFResult :=
  rlfOuter G G.N (resetColors G.N s0) 0 0 []

/-! Observables and well-formedness predicates used by the theorems. -/

/-- The colors of vertices 1..N, as a list. -/
def colorList (G : Graph) (s : ColorState) : List Int :=
  (vertexList G).map s.color

/-- A well-formed graph as the loader guarantees it: neighbor ids are valid
1..N indices and adjacency is symmetric. -/
def WellFormed (G : Graph) : Prop :=
  ∀ i ∈ vertexList G, ∀ j ∈ G.nbrs i, j ∈ vertexList G ∧ i ∈ G.nbrs j

/-- No vertex is its own neighbor. -/
def LoopFree (G : Graph) : Prop :=
  ∀ i ∈ vertexList G, i ∉ G.nbrs i

/-- The graph has no edges at all. -/
def EdgeFree (G : Graph) : Prop :=
  ∀ i ∈ vertexList G, G.nbrs i = []

/-- The end-of-run feasibility invariant: adjacent vertices never share a
color once colored. -/
def ValidColoring (G : Graph) (s : ColorState) : Prop :=
  ∀ u ∈ vertexList G, ∀ v ∈ G.nbrs u, s.color u ≠ s.color v

/-- Every vertex is colored. -/
def AllColored (G : Graph) (s : ColorState) : Prop :=
  ∀ i ∈ vertexList G, s.color i ≠ -1

instance (G : Graph) : Decidable (WellFormed G) :=
  inferInstanceAs (Decidable (∀ i ∈ vertexList G, ∀ j ∈ G.nbrs i,
    j ∈ vertexList G ∧ i ∈ G.nbrs j))

instance (G : Graph) : Decidable (LoopFree G) :=
  inferInstanceAs (Decidable (∀ i ∈ vertexList G, i ∉ G.nbrs i))

instance (G : Graph) : Decidable (EdgeFree G) :=
  inferInstanceAs (Decidable (∀ i ∈ vertexList G, G.nbrs i = []))

instance (G : Graph) (s : ColorState) : Decidable (ValidColoring G s) :=
  inferInstanceAs (Decidable (∀ u ∈ vertexList G, ∀ v ∈ G.nbrs u, s.color u ≠ s.color v))

instance (G : Graph) (s : ColorState) : Decidable (AllColored G s) :=
  inferInstanceAs (Decidable (∀ i ∈ vertexList G, s.color i ≠ -1))

/-- Replay a list of assignments on top of a color map (used to state
properties of intermediate states of a run from its trace). -/
def applyColors (col : Nat → Int) (tr : List (Nat × Int)) : Nat → Int :=
  tr.foldl (fun c p => Function.update c p.1 p.2) col

/-- A color map restricted variant of `isColorValid`, for stating trace
properties. -/
def validColor (G : Graph) (col : Nat → Int) (v : Nat) (c : Int) : Bool :=
  (G.nbrs v).all (fun nb => col nb != c)

/-- `v` is the first-encountered uncolored vertex of maximum degree, in the
iteration order 1..N. -/
def IsFirstMaxDeg (G : Graph) (s : ColorState) (v : Nat) : Prop :=
  v ∈ vertexList G ∧ s.color v = -1 ∧
    (∀ u ∈ vertexList G, s.color u = -1 → G.deg u ≤ G.deg v) ∧
    (∀ u ∈ vertexList G, u < v → s.color u = -1 → G.deg u < G.deg v)

instance (G : Graph) (s : ColorState) (v : Nat) : Decidable (IsFirstMaxDeg G s v) :=
  inferInstanceAs (Decidable (v ∈ vertexList G ∧ s.color v = -1 ∧
    (∀ u ∈ vertexList G, s.color u = -1 → G.deg u ≤ G.deg v) ∧
    (∀ u ∈ vertexList G, u < v → s.color u = -1 → G.deg u < G.deg v)))

/-- A vertex is an uncolored vertex of maximum degree among the uncolored
vertices — without the encounter-order tie-break. -/
def IsMaxDeg (G : Graph) (s : ColorState) (v : Nat) : Prop :=
  v ∈ vertexList G ∧ s.color v = -1 ∧
    ∀ u ∈ vertexList G, s.color u = -1 → G.deg u ≤ G.deg v

instance (G : Graph) (s : ColorState) (v : Nat) : Decidable (IsMaxDeg G s v) :=
  inferInstanceAs (Decidable (v ∈ vertexList G ∧ s.color v = -1 ∧
    ∀ u ∈ vertexList G, s.color u = -1 → G.deg u ≤ G.deg v))

/-- The leftmost maximum-degree element of a list (the specification of both
the head of the degree-descending sort and of
`find_max_degree_uncolored_vertex` on an all-uncolored state). -/
def firstMaxAll (G : Graph) : List Nat → Option Nat
  | [] => none
  | i :: rest =>
    match firstMaxAll G rest with
    | none => some i
    | some b => if G.deg b ≤ G.deg i then some i else some b

/-- The leftmost maximum-degree uncolored element of a list (the
specification of `find_max_degree_uncolored_vertex`). -/
def firstMaxUncolored (G : Graph) (s : ColorState) : List Nat → Option Nat
  | [] => none
  | i :: rest =>
    if s.color i = -1 then
      match firstMaxUncolored G s rest with
      | none => some i
      | some b => if G.deg i ≥ G.deg b then some i else some b
    else firstMaxUncolored G s rest

/-- The invariant carried by the main loop of `generic_greedy_coloring`. -/
structure LoopInv (G : Graph) (s : ColorState) (uncolored : List Nat)
    (palette : List Int) (next : Nat) : Prop where
  sub : ∀ i ∈ uncolored, i ∈ vertexList G
  nd : uncolored.Nodup
  mem : ∀ i ∈ vertexList G, (s.color i = -1 ↔ i ∈ uncolored)
  lt : ∀ i ∈ vertexList G, s.color i = -1 ∨ (0 ≤ s.color i ∧ s.color i < (next : Int))
  pal : palette = (List.range' 0 next).map (fun n : Nat => (n : Int))
  used : ∀ c : Int, 0 ≤ c → c < (next : Int) → ∃ i ∈ vertexList G, s.color i = c
  one : 1 ≤ next
  proper : WellFormed G → LoopFree G →
    ∀ u ∈ vertexList G, ∀ v ∈ G.nbrs u, s.color u ≠ -1 → s.color u ≠ s.color v

/-- What holds of the result of the main loop of `generic_greedy_coloring`,
relative to the loop entry values of `next`, `uncolored` and `trace`. -/
structure LoopOut (G : Graph) (s : ColorState) (res : GreedyResult)
    (uncolored : List Nat) (next : Nat) (trace : List (Nat × Int)) : Prop where
  colored : AllColored G res.state
  bound : ∀ i ∈ vertexList G, 0 ≤ res.state.color i ∧ res.state.color i < (res.count : Int)
  pal : res.palette = (List.range' 0 res.count).map (fun n : Nat => (n : Int))
  used : ∀ c : Int, 0 ≤ c → c < (res.count : Int) → ∃ i ∈ vertexList G, res.state.color i = c
  valid : WellFormed G → LoopFree G → ValidColoring G res.state
  warned : res.warned = false
  mono : next ≤ res.count
  edgefree : EdgeFree G → res.count = next
  traceExt : ∃ tl, res.trace = trace ++ tl
  traceLen : res.trace.length = trace.length + uncolored.length
  firstFit : WellFormed G → ∀ t1 v c t2, res.trace = trace ++ t1 ++ (v, c) :: t2 →
    (applyColors s.color t1) v = -1 ∧
    validColor G (applyColors s.color t1) v c = true ∧
    ∀ c' : Int, 0 ≤ c' → c' < c → validColor G (applyColors s.color t1) v c' = false

/-- The number of uncolored vertices among 1..N. -/
def countUncolored (G : Graph) (s : ColorState) : Nat :=
  ((vertexList G).filter (fun i => s.color i == -1)).length

/-- The invariant carried by the outer loop of `RLF_coloring` (between color
classes: all assigned colors are strictly below the active one). -/
structure RlfInv (G : Graph) (s : ColorState) (curColor : Nat) (total : Nat)
    (trace : List (Nat × Int)) : Prop where
  count : total + countUncolored G s = G.N
  bound : ∀ i ∈ vertexList G, s.color i = -1 ∨ (0 ≤ s.color i ∧ s.color i < (curColor : Int))
  used : ∀ c : Int, 0 ≤ c → c < (curColor : Int) → ∃ i ∈ vertexList G, s.color i = c
  proper : WellFormed G → LoopFree G →
    ∀ u ∈ vertexList G, ∀ v ∈ G.nbrs u, s.color u ≠ -1 → s.color u ≠ s.color v
  tlen : total = trace.length

/-- The invariant carried by the inner loop of `RLF_coloring` (while the
class of the active color is being built: the forbidden set covers all
neighbors of the class built so far). -/
structure RlfInnerInv (G : Graph) (s : ColorState) (forb : Nat → Bool)
    (curColor : Nat) (total : Nat) (trace : List (Nat × Int)) : Prop where
  count : total + countUncolored G s = G.N
  bound : ∀ i ∈ vertexList G, s.color i = -1 ∨ (0 ≤ s.color i ∧ s.color i ≤ (curColor : Int))
  used : ∀ c : Int, 0 ≤ c → c ≤ (curColor : Int) → ∃ i ∈ vertexList G, s.color i = c
  forbcl : ∀ w ∈ vertexList G, s.color w = (curColor : Int) → ∀ x ∈ G.nbrs w, forb x = true
  proper : WellFormed G → LoopFree G →
    ∀ u ∈ vertexList G, ∀ v ∈ G.nbrs u, s.color u ≠ -1 → s.color u ≠ s.color v
  tlen : total = trace.length

/-- What holds of the result of the RLF outer loop, relative to the loop
entry values. -/
structure RlfOut (G : Graph) (s : ColorState) (res : RLFResult)
    (curColor total : Nat) (trace : List (Nat × Int)) : Prop where
  colored : AllColored G res.state
  bound : ∀ i ∈ vertexList G, 0 ≤ res.state.color i ∧ res.state.color i < (res.count : Int)
  used : ∀ c : Int, 0 ≤ c → c < (res.count : Int) → ∃ i ∈ vertexList G, res.state.color i = c
  valid : WellFormed G → LoopFree G → ValidColoring G res.state
  warned : res.warned = false
  mono : curColor ≤ res.count
  edgefree : EdgeFree G → total < G.N → res.count = curColor + 1
  traceExt : ∃ tl, res.trace = trace ++ tl
  traceLen : res.trace.length = G.N
  seed : total < G.N → ∃ vi tl, find_max_degree_uncolored_vertex G s = some vi ∧
    res.trace = trace ++ (vi, (curColor : Int)) :: tl

/-- Two states agree on the colors of all vertices 1..N (the simulation
relation for the state-independence theorems). -/
def ColorEqOn (G : Graph) (s t : ColorState) : Prop :=
  ∀ i ∈ vertexList G, s.color i = t.color i

/-! Concrete instances for sanity checks, counterexamples and witnesses. -/

/-- An all-uncolored, all-zero-heuristic initial state. -/
def initState : ColorState :=
  ⟨fun _ => -1, fun _ => 0⟩

/-- The one-vertex graph with a self-loop (edge `e 1 1`, which the loader
accepts: it pushes vertex 1 onto its own neighbor list twice). -/
def Gloop : Graph :=
  ⟨1, fun _ => 2, fun i => if i = 1 then [1, 1] else []⟩

/-- The triangle 1-2, 2-3, 1-3. -/
def Gtriangle : Graph :=
  ⟨3, fun _ => 2, fun i => if i = 1 then [2, 3] else if i = 2 then [1, 3] else if i = 3 then [1, 2] else []⟩

/-- The 4-cycle 1-2-3-4-1. -/
def Gcycle4 : Graph :=
  ⟨4, fun _ => 2, fun i =>
    if i = 1 then [2, 4] else if i = 2 then [1, 3] else
    if i = 3 then [2, 4] else if i = 4 then [3, 1] else []⟩

/-- The edgeless graph on 5 vertices. -/
def Gedgeless : Graph :=
  ⟨5, fun _ => 0, fun _ => []⟩

/-- The path 1-2-3 (degrees 1,2,1). -/
def Gpath3 : Graph :=
  ⟨3, fun i => if i = 2 then 2 else 1, fun i =>
    if i = 1 then [2] else if i = 2 then [1, 3] else if i = 3 then [2] else []⟩

/-- A star with center 4 and leaves 1..3, used to check the DSATUR
saturation count: three colored neighbors sharing one color. -/
def GsatTest : Graph :=
  ⟨4, fun i => if i = 4 then 3 else 1, fun i =>
    if i = 4 then [1, 2, 3] else if 1 ≤ i ∧ i ≤ 3 then [4] else []⟩

/-- A state where the three leaves of `GsatTest` all carry color 0 and the
center is uncolored. -/
def satState : ColorState :=
  ⟨fun i => if 1 ≤ i ∧ i ≤ 3 then 0 else -1, fun _ => 0⟩

/-- An all-uncolored initial state with nonzero heuristic garbage, for the
heuristic-independence witness. -/
def altHeurState : ColorState :=
  ⟨fun _ => -1, fun _ => 42⟩

example : (IDO_coloring Gtriangle initState).count = 3 := by decide
example : (DSATUR_coloring Gtriangle initState).count = 3 := by decide
example : (RLF_coloring Gtriangle initState).count = 3 := by decide
example : (IDO_coloring Gcycle4 initState).count = 2 := by decide
example : (DSATUR_coloring Gcycle4 initState).count = 2 := by decide
example : (RLF_coloring Gcycle4 initState).count = 2 := by decide
example : (IDO_coloring Gedgeless initState).count = 1 := by decide
example : (RLF_coloring Gedgeless initState).count = 1 := by decide
example : (IDO_coloring Gloop initState).count = 1 := by decide
example : colorList Gpath3 (IDO_coloring Gpath3 initState).state = [1, 0, 1] := by decide
example : (IDO_coloring Gpath3 initState).trace = [(2, 0), (1, 1), (3, 1)] := by decide

/-! Basic lemmas about the state operations and the scans. -/

theorem setColor_color (s : ColorState) (v : Nat) (c : Int) :
    (setColor s v c).color = Function.update s.color v c := rfl

theorem setHeur_color (s : ColorState) (v : Nat) (h : Int) :
    (setHeur s v h).color = s.color := rfl

theorem scanLoop_color (alg : Alg) (G : Graph) :
    ∀ (l : List Nat) (s : ColorState) (best : Option Nat),
      ((scanLoop alg G l s best).2).color = s.color := by
  intro l
  induction l with
  | nil => intro s best; rfl
  | cons v rest ih =>
    intro s best
    simp only [scanLoop]
    rw [ih]
    rfl

theorem pickBest_cases (G : Graph) (s : ColorState) (v : Nat) (best : Option Nat) :
    pickBest G s v best = some v ∨ pickBest G s v best = best := by
  rcases best with _ | b
  · exact Or.inl rfl
  · simp only [pickBest]
    split
    · exact Or.inl rfl
    · exact Or.inr rfl

theorem pickBest_ne_none (G : Graph) (s : ColorState) (v : Nat) (best : Option Nat) :
    pickBest G s v best ≠ none := by
  rcases best with _ | b
  · exact fun h => Option.noConfusion h
  · simp only [pickBest]
    split
    · exact fun h => Option.noConfusion h
    · exact fun h => Option.noConfusion h

theorem scanLoop_fst_of_some (alg : Alg) (G : Graph) :
    ∀ (l : List Nat) (s : ColorState) (best : Option Nat), best ≠ none →
      (scanLoop alg G l s best).1 ≠ none := by
  intro l
  induction l with
  | nil => intro s best hb; exact hb
  | cons v rest ih =>
    intro s best hb
    simp only [scanLoop]
    exact ih _ _ (pickBest_ne_none _ _ _ _)

theorem scanLoop_ne_none (alg : Alg) (G : Graph) (l : List Nat) (s : ColorState)
    (hl : l ≠ []) : (scanLoop alg G l s none).1 ≠ none := by
  cases l with
  | nil => exact absurd rfl hl
  | cons v rest =>
    simp only [scanLoop]
    exact scanLoop_fst_of_some alg G rest _ _ (pickBest_ne_none _ _ _ _)

theorem scanLoop_mem (alg : Alg) (G : Graph) :
    ∀ (l : List Nat) (s : ColorState) (best : Option Nat) (b : Nat),
      (scanLoop alg G l s best).1 = some b → b ∈ l ∨ best = some b := by
  intro l
  induction l with
  | nil => intro s best b h; exact Or.inr h
  | cons v rest ih =>
    intro s best b h
    simp only [scanLoop] at h
    rcases ih _ _ _ h with h' | h'
    · exact Or.inl (List.mem_cons_of_mem _ h')
    · rcases pickBest_cases G (setHeur s v (computeHeuristic alg G s v)) v best with hp | hp
      · rw [h'] at hp
        exact Or.inl (by simp [Option.some_inj.1 hp.symm])
      · rw [h'] at hp
        exact Or.inr hp.symm

theorem scanLoop_heur_not_mem (alg : Alg) (G : Graph) :
    ∀ (l : List Nat) (s : ColorState) (best : Option Nat) (v : Nat), v ∉ l →
      ((scanLoop alg G l s best).2).heur v = s.heur v := by
  intro l
  induction l with
  | nil => intro s best v _; rfl
  | cons w rest ih =>
    intro s best v hv
    have hvw : v ≠ w := fun h => hv (h ▸ List.mem_cons_self w rest)
    have hvrest : v ∉ rest := fun h => hv (List.mem_cons_of_mem _ h)
    simp only [scanLoop]
    rw [ih _ _ _ hvrest]
    simp [setHeur, Function.update_noteq hvw]

theorem scanLoop_heur_mem (alg : Alg) (G : Graph) :
    ∀ (l : List Nat) (s : ColorState) (best : Option Nat) (v : Nat), v ∈ l →
      ((scanLoop alg G l s best).2).heur v = computeHeuristic alg G s v := by
  intro l
  induction l with
  | nil => intro s best v hv; exact absurd hv (List.not_mem_nil v)
  | cons w rest ih =>
    intro s best v hv
    simp only [scanLoop]
    by_cases hvrest : v ∈ rest
    · rw [ih _ _ _ hvrest]
      rcases List.mem_cons.1 hv with hvw | _
      · subst hvw
        rfl
      · rfl
    · have hvw : v = w := by
        rcases List.mem_cons.1 hv with h | h
        · exact h
        · exact absurd h hvrest
      subst hvw
      rw [scanLoop_heur_not_mem alg G rest _ _ _ hvrest]
      simp [setHeur, Function.update_same]

/-! First-fit lemmas. -/

theorem firstFitColor_some (G : Graph) (s : ColorState) (v : Nat) :
    ∀ (pal : List Int) (c : Int), firstFitColor G s v pal = some c →
      isColorValid G s v c = true ∧ c ∈ pal := by
  intro pal
  induction pal with
  | nil => intro c h; exact Option.noConfusion h
  | cons d rest ih =>
    intro c h
    simp only [firstFitColor] at h
    by_cases hd : isColorValid G s v d
    · rw [if_pos hd] at h
      rcases Option.some_inj.1 h with rfl
      exact ⟨hd, List.mem_cons_self _ _⟩
    · rw [if_neg hd] at h
      rcases ih c h with ⟨h1, h2⟩
      exact ⟨h1, List.mem_cons_of_mem _ h2⟩

theorem firstFitColor_range_some (G : Graph) (s : ColorState) (v : Nat) :
    ∀ (m k : Nat) (c : Int),
      firstFitColor G s v ((List.range' k m).map (fun n : Nat => (n : Int))) = some c →
      ∃ j : Nat, c = (j : Int) ∧ k ≤ j ∧ j < k + m ∧ isColorValid G s v (j : Int) = true ∧
        ∀ i : Nat, k ≤ i → i < j → isColorValid G s v (i : Int) = false := by
  intro m
  induction m with
  | zero => intro k c h; exact Option.noConfusion h
  | succ m ih =>
    intro k c h
    rw [List.range'_succ] at h
    simp only [List.map_cons, firstFitColor] at h
    by_cases hk : isColorValid G s v (k : Int) = true
    · rw [if_pos hk] at h
      refine ⟨k, (Option.some_inj.1 h).symm, le_refl _, by omega, hk,
        fun i h1 h2 => absurd h1 (by omega)⟩
    · rw [if_neg hk] at h
      rcases ih (k + 1) c h with ⟨j, rfl, hj1, hj2, hj3, hj4⟩
      refine ⟨j, rfl, by omega, by omega, hj3, ?_⟩
      intro i h1 h2
      rcases Nat.eq_or_lt_of_le h1 with rfl | h1'
      · exact Bool.eq_false_iff.2 hk
      · exact hj4 i h1' h2

theorem firstFitColor_range_none (G : Graph) (s : ColorState) (v : Nat) :
    ∀ (m k : Nat),
      firstFitColor G s v ((List.range' k m).map (fun n : Nat => (n : Int))) = none →
      ∀ i : Nat, k ≤ i → i < k + m → isColorValid G s v (i : Int) = false := by
  intro m
  induction m with
  | zero => intro k _ i h1 h2; omega
  | succ m ih =>
    intro k h i h1 h2
    rw [List.range'_succ] at h
    simp only [List.map_cons, firstFitColor] at h
    by_cases hk : isColorValid G s v (k : Int) = true
    · rw [if_pos hk] at h
      exact Option.noConfusion h
    · rw [if_neg hk] at h
      rcases Nat.eq_or_lt_of_le h1 with rfl | h1'
      · exact Bool.eq_false_iff.2 hk
      · exact ih (k + 1) h i h1' (by omega)

/-! List helpers. -/

theorem mem_filter_ne {l : List Nat} {b i : Nat} :
    i ∈ l.filter (fun x => x != b) ↔ i ∈ l ∧ i ≠ b := by
  simp [List.mem_filter]

theorem length_filter_ne {l : List Nat} {b : Nat} (hnd : l.Nodup) (hb : b ∈ l) :
    (l.filter (fun x => x != b)).length + 1 = l.length := by
  induction l with
  | nil => exact absurd hb (List.not_mem_nil b)
  | cons a rest ih =>
    rcases List.mem_cons.1 hb with rfl | hbr
    · have hbr : b ∉ rest := (List.nodup_cons.1 hnd).1
      have : rest.filter (fun x => x != b) = rest := by
        apply List.filter_eq_self.2
        intro x hx
        simp only [bne_iff_ne, ne_eq, decide_eq_true_eq]
        exact fun h => hbr (h ▸ hx)
      simp [List.filter_cons, this]
    · have hab : (a != b) = true := by
        simp only [bne_iff_ne, ne_eq, decide_eq_true_eq]
        rintro rfl
        exact (List.nodup_cons.1 hnd).1 hbr
      rw [List.filter_cons, if_pos hab]
      simp only [List.length_cons]
      rw [← ih (List.nodup_cons.1 hnd).2 hbr]

theorem applyColors_nil (col : Nat → Int) : applyColors col [] = col := rfl

theorem applyColors_cons (col : Nat → Int) (v : Nat) (c : Int) (tr : List (Nat × Int)) :
    applyColors col ((v, c) :: tr) = applyColors (Function.update col v c) tr := rfl

theorem isColorValid_eq_validColor (G : Graph) (s : ColorState) (v : Nat) (c : Int) :
    isColorValid G s v c = validColor G s.color v c := rfl

theorem isColorValid_iff (G : Graph) (s : ColorState) (v : Nat) (c : Int) :
    isColorValid G s v c = true ↔ ∀ nb ∈ G.nbrs v, s.color nb ≠ c := by
  simp [isColorValid, List.all_eq_true]

theorem vertexList_nodup (G : Graph) : (vertexList G).Nodup :=
  List.nodup_range' 1 G.N

theorem mem_vertexList (G : Graph) {i : Nat} :
    i ∈ vertexList G ↔ 1 ≤ i ∧ i < 1 + G.N := List.mem_range'_1

/-- Invariant preservation when the selected vertex receives an existing
palette color. -/
theorem loopInv_step_some (G : Graph) {s s' : ColorState} {uncolored : List Nat}
    {palette : List Int} {next : Nat} {b : Nat} {c : Int}
    (hinv : LoopInv G s uncolored palette next)
    (hb : b ∈ uncolored)
    (hs'col : s'.color = s.color)
    (hc : firstFitColor G s' b palette = some c) :
    LoopInv G (setColor s' b c) (uncolored.filter (fun x => x != b)) palette next := by
  obtain ⟨hcv, hcmem⟩ := firstFitColor_some G s' b palette c hc
  have hbV : b ∈ vertexList G := hinv.sub b hb
  have hbcol : s.color b = -1 := (hinv.mem b hbV).mpr hb
  have hcrange : 0 ≤ c ∧ c < (next : Int) := by
    rw [hinv.pal] at hcmem
    simp only [List.mem_map, List.mem_range'_1] at hcmem
    obtain ⟨j, ⟨_, hj⟩, rfl⟩ := hcmem
    constructor
    · exact Int.ofNat_nonneg j
    · exact_mod_cast by omega
  have hvalid : ∀ w ∈ G.nbrs b, s.color w ≠ c := by
    intro w hw
    have := (isColorValid_iff G s' b c).1 hcv w hw
    rwa [hs'col] at this
  refine ⟨?_, ?_, ?_, ?_, hinv.pal, ?_, hinv.one, ?_⟩
  · intro i hi
    exact hinv.sub i (mem_filter_ne.1 hi).1
  · exact hinv.nd.filter _
  · intro i hi
    rw [setColor_color, Function.update_apply, hs'col]
    by_cases hib : i = b
    · subst hib
      rw [if_pos rfl]
      simp only [mem_filter_ne]
      constructor
      · intro h; exact absurd h (by omega)
      · rintro ⟨_, h⟩; exact absurd rfl h
    · simp only [if_neg hib, mem_filter_ne]
      rw [hinv.mem i hi]
      exact ⟨fun h => ⟨h, hib⟩, fun h => h.1⟩
  · intro i hi
    rw [setColor_color, Function.update_apply, hs'col]
    by_cases hib : i = b
    · rw [if_pos hib]
      exact Or.inr hcrange
    · rw [if_neg hib]
      exact hinv.lt i hi
  · intro c' h0 hlt
    obtain ⟨i₀, hi₀V, hi₀c⟩ := hinv.used c' h0 hlt
    have hi₀b : i₀ ≠ b := by
      intro h
      rw [h, hbcol] at hi₀c
      omega
    exact ⟨i₀, hi₀V, by rw [setColor_color, Function.update_apply, hs'col, if_neg hi₀b]; exact hi₀c⟩
  · intro hwf hlf u huV v hv
    rw [setColor_color, Function.update_apply, Function.update_apply, hs'col]
    by_cases hub : u = b
    · rw [if_pos hub]
      intro _
      have hvb : v ≠ b := by
        intro h
        have hvu : v = u := h.trans hub.symm
        rw [hvu] at hv
        exact hlf u huV hv
      rw [if_neg hvb]
      have hv' : v ∈ G.nbrs b := by
        rw [← hub]
        exact hv
      exact fun h => hvalid v hv' h.symm
    · rw [if_neg hub]
      intro hucol
      by_cases hvb : v = b
      · rw [if_pos hvb]
        have humem : u ∈ G.nbrs b := by
          have := (hwf u huV v hv).2
          rwa [hvb] at this
        exact hvalid u humem
      · rw [if_neg hvb]
        exact hinv.proper hwf hlf u huV v hv hucol

/-- Invariant preservation when no palette color fits and a brand-new color
is appended. -/
theorem loopInv_step_none (G : Graph) {s s' : ColorState} {uncolored : List Nat}
    {palette : List Int} {next : Nat} {b : Nat}
    (hinv : LoopInv G s uncolored palette next)
    (hb : b ∈ uncolored)
    (hs'col : s'.color = s.color) :
    LoopInv G (setColor s' b (next : Int)) (uncolored.filter (fun x => x != b))
      (palette ++ [(next : Int)]) (next + 1) := by
  have hbV : b ∈ vertexList G := hinv.sub b hb
  have hbcol : s.color b = -1 := (hinv.mem b hbV).mpr hb
  have hnn : (0 : Int) ≤ (next : Int) := Int.ofNat_nonneg next
  refine ⟨?_, ?_, ?_, ?_, ?_, ?_, by omega, ?_⟩
  · intro i hi
    exact hinv.sub i (mem_filter_ne.1 hi).1
  · exact hinv.nd.filter _
  · intro i hi
    rw [setColor_color, Function.update_apply, hs'col]
    by_cases hib : i = b
    · subst hib
      rw [if_pos rfl]
      simp only [mem_filter_ne]
      constructor
      · intro h; exact absurd h (by omega)
      · rintro ⟨_, h⟩; exact absurd rfl h
    · simp only [if_neg hib, mem_filter_ne]
      rw [hinv.mem i hi]
      exact ⟨fun h => ⟨h, hib⟩, fun h => h.1⟩
  · intro i hi
    rw [setColor_color, Function.update_apply, hs'col]
    by_cases hib : i = b
    · rw [if_pos hib]
      refine Or.inr ⟨hnn, ?_⟩
      exact_mod_cast by omega
    · rw [if_neg hib]
      rcases hinv.lt i hi with h | ⟨h1, h2⟩
      · exact Or.inl h
      · refine Or.inr ⟨h1, ?_⟩
        have : ((next : Int)) < ((next + 1 : Nat) : Int) := by exact_mod_cast by omega
        omega
  · rw [hinv.pal, List.range'_1_concat, List.map_append]
    simp
  · intro c' h0 hlt
    by_cases hceq : c' = (next : Int)
    · refine ⟨b, hbV, ?_⟩
      rw [setColor_color, Function.update_apply, if_pos rfl, hceq]
    · have hlt' : c' < (next : Int) := by
        have : ((next + 1 : Nat) : Int) = (next : Int) + 1 := by exact_mod_cast rfl
        omega
      obtain ⟨i₀, hi₀V, hi₀c⟩ := hinv.used c' h0 hlt'
      have hi₀b : i₀ ≠ b := by
        intro h
        rw [h, hbcol] at hi₀c
        omega
      exact ⟨i₀, hi₀V, by rw [setColor_color, Function.update_apply, hs'col, if_neg hi₀b]; exact hi₀c⟩
  · intro hwf hlf u huV v hv
    have hvalid : ∀ w ∈ G.nbrs b, s.color w ≠ (next : Int) := by
      intro w hw
      have hwV : w ∈ vertexList G := (hwf b hbV w hw).1
      rcases hinv.lt w hwV with h | ⟨h1, h2⟩
      · omega
      · omega
    rw [setColor_color, Function.update_apply, Function.update_apply, hs'col]
    by_cases hub : u = b
    · rw [if_pos hub]
      intro _
      have hvb : v ≠ b := by
        intro h
        have hvu : v = u := h.trans hub.symm
        rw [hvu] at hv
        exact hlf u huV hv
      rw [if_neg hvb]
      have hv' : v ∈ G.nbrs b := by
        rw [← hub]
        exact hv
      exact fun h => hvalid v hv' h.symm
    · rw [if_neg hub]
      intro hucol
      by_cases hvb : v = b
      · rw [if_pos hvb]
        have humem : u ∈ G.nbrs b := by
          have := (hwf u huV v hv).2
          rwa [hvb] at this
        exact hvalid u humem
      · rw [if_neg hvb]
        exact hinv.proper hwf hlf u huV v hv hucol

/-- The terminal result of the main loop, when the uncolored list is empty. -/
theorem loopOut_terminal (G : Graph) (s : ColorState) (palette : List Int)
    (next : Nat) (trace : List (Nat × Int))
    (hinv : LoopInv G s [] palette next) :
    LoopOut G s ⟨next, s, palette, trace, false⟩ [] next trace := by
  have hcol : AllColored G s := by
    intro i hi h
    exact (List.not_mem_nil i) ((hinv.mem i hi).mp h)
  refine ⟨hcol, ?_, hinv.pal, hinv.used, ?_, rfl, le_refl _, fun _ => rfl,
    ⟨[], by simp⟩, by simp, ?_⟩
  · intro i hi
    rcases hinv.lt i hi with h | h
    · exact absurd h (hcol i hi)
    · exact h
  · intro hwf hlf u huV v hv
    exact hinv.proper hwf hlf u huV v hv (hcol u huV)
  · intro _ t1 v c t2 habs
    exfalso
    have hlen := congrArg List.length habs
    simp only [List.length_append, List.length_cons] at hlen
    omega

/-- The master invariant theorem about the main loop of
`generic_greedy_coloring`: given the loop invariant and sufficient fuel, the
loop produces a fully colored state with colors exactly 0..count-1, the
palette enumerating them, a proper coloring on well-formed loop-free graphs,
no warning, first-fit assignments, and one trace entry per removed vertex. -/
theorem greedyLoop_master (alg : Alg) (G : Graph) :
    ∀ (fuel : Nat) (s : ColorState) (uncolored : List Nat) (palette : List Int)
      (next : Nat) (trace : List (Nat × Int)),
      LoopInv G s uncolored palette next → uncolored.length ≤ fuel →
      LoopOut G s (greedyLoop alg G fuel s uncolored palette next trace)
        uncolored next trace := by
  intro fuel
  induction fuel with
  | zero =>
    intro s uncolored palette next trace hinv hfuel
    have hemp : uncolored = [] := List.length_eq_zero.1 (Nat.le_zero.1 hfuel)
    subst hemp
    exact loopOut_terminal G s palette next trace hinv
  | succ fuel ih =>
    intro s uncolored palette next trace hinv hfuel
    by_cases hemp : uncolored = []
    · subst hemp
      have hred : greedyLoop alg G (fuel + 1) s [] palette next trace =
          ⟨next, s, palette, trace, false⟩ := by
        simp [greedyLoop]
      rw [hred]
      exact loopOut_terminal G s palette next trace hinv
    · have hlist : uncolored.isEmpty = false := by
        cases uncolored with
        | nil => exact absurd rfl hemp
        | cons a l => rfl
      rcases hscan : scanLoop alg G uncolored s none with ⟨bo, s'⟩
      rcases bo with _ | b
      · exfalso
        apply scanLoop_ne_none alg G uncolored s hemp
        rw [hscan]
      have hs'col : s'.color = s.color := by
        have h := scanLoop_color alg G uncolored s none
        rw [hscan] at h
        exact h
      have hbmem : b ∈ uncolored := by
        rcases scanLoop_mem alg G uncolored s none b (by rw [hscan]) with h | h
        · exact h
        · exact Option.noConfusion h
      have hbV : b ∈ vertexList G := hinv.sub b hbmem
      have hbcol : s.color b = -1 := (hinv.mem b hbV).mpr hbmem
      have hfuel' : (uncolored.filter (fun x => x != b)).length ≤ fuel := by
        have h := length_filter_ne hinv.nd hbmem
        omega
      cases hff : firstFitColor G s' b palette with
      | some c =>
        have hinv' := loopInv_step_some G hinv hbmem hs'col hff
        have hout := ih (setColor s' b c) (uncolored.filter (fun x => x != b))
          palette next (trace ++ [(b, c)]) hinv' hfuel'
        have hstep : greedyLoop alg G (fuel + 1) s uncolored palette next trace =
            greedyLoop alg G fuel (setColor s' b c)
              (uncolored.filter (fun x => x != b)) palette next (trace ++ [(b, c)]) := by
          simp only [greedyLoop, hlist, Bool.false_eq_true, if_false, hscan, hff]
        rw [hstep]
        obtain ⟨hcv, _⟩ := firstFitColor_some G s' b palette c hff
        refine ⟨hout.colored, hout.bound, hout.pal, hout.used, hout.valid,
          hout.warned, hout.mono, fun hef => hout.edgefree hef, ?_, ?_, ?_⟩
        · obtain ⟨tl, htl⟩ := hout.traceExt
          exact ⟨(b, c) :: tl, by rw [htl]; simp⟩
        · have hflt := length_filter_ne hinv.nd hbmem
          rw [hout.traceLen]
          simp only [List.length_append, List.length_cons, List.length_nil]
          omega
        · intro hwf t1 v0 c0 t2 hdec
          obtain ⟨tl, htl⟩ := hout.traceExt
          cases t1 with
          | nil =>
            rw [List.append_nil] at hdec
            rw [List.append_assoc, List.singleton_append] at htl
            rw [htl] at hdec
            have h2 := List.append_cancel_left hdec
            injection h2 with h3 h4
            injection h3 with hb5 hc5
            subst hb5
            subst hc5
            rw [applyColors_nil]
            refine ⟨hbcol, ?_, ?_⟩
            · have h := hcv
              rw [isColorValid_eq_validColor, hs'col] at h
              exact h
            · intro c' h0 hlt
              rw [hinv.pal] at hff
              obtain ⟨j, rfl, _, _, _, hmin⟩ :=
                firstFitColor_range_some G s' b next 0 c hff
              obtain ⟨n, rfl⟩ := Int.eq_ofNat_of_zero_le h0
              have hnj : n < j := by exact_mod_cast hlt
              have h := hmin n (Nat.zero_le n) hnj
              rw [isColorValid_eq_validColor, hs'col] at h
              exact h
          | cons p t1' =>
            rw [List.append_assoc, List.cons_append] at hdec
            rw [List.append_assoc, List.singleton_append] at htl
            rw [htl] at hdec
            have h2 := List.append_cancel_left hdec
            injection h2 with h3 h4
            have hdec' : (greedyLoop alg G fuel (setColor s' b c)
                (uncolored.filter (fun x => x != b)) palette next
                (trace ++ [(b, c)])).trace =
                trace ++ [(b, c)] ++ t1' ++ (v0, c0) :: t2 := by
              rw [htl, h4]
              rw [List.append_assoc, List.append_assoc, List.singleton_append]
            have hres := hout.firstFit hwf t1' v0 c0 t2 hdec'
            rw [setColor_color, hs'col] at hres
            rw [← h3, applyColors_cons]
            exact hres
      | none =>
        have hinv' := loopInv_step_none G hinv hbmem hs'col
        have hout := ih (setColor s' b (next : Int)) (uncolored.filter (fun x => x != b))
          (palette ++ [(next : Int)]) (next + 1) (trace ++ [(b, (next : Int))]) hinv' hfuel'
        have hstep : greedyLoop alg G (fuel + 1) s uncolored palette next trace =
            greedyLoop alg G fuel (setColor s' b (next : Int))
              (uncolored.filter (fun x => x != b)) (palette ++ [(next : Int)])
              (next + 1) (trace ++ [(b, (next : Int))]) := by
          simp only [greedyLoop, hlist, Bool.false_eq_true, if_false, hscan, hff]
        rw [hstep]
        refine ⟨hout.colored, hout.bound, hout.pal, hout.used, hout.valid,
          hout.warned, le_trans (Nat.le_succ next) hout.mono, ?_, ?_, ?_, ?_⟩
        · intro hef
          exfalso
          have hb0 : isColorValid G s' b ((0 : Nat) : Int) = true := by
            simp [isColorValid, hef b hbV]
          obtain ⟨m, hm⟩ := Nat.exists_eq_add_of_le hinv.one
          rw [hinv.pal, hm, Nat.add_comm 1 m, List.range'_succ, List.map_cons,
            firstFitColor, if_pos hb0] at hff
          exact Option.noConfusion hff
        · obtain ⟨tl, htl⟩ := hout.traceExt
          exact ⟨(b, (next : Int)) :: tl, by rw [htl]; simp⟩
        · have hflt := length_filter_ne hinv.nd hbmem
          rw [hout.traceLen]
          simp only [List.length_append, List.length_cons, List.length_nil]
          omega
        · intro hwf t1 v0 c0 t2 hdec
          obtain ⟨tl, htl⟩ := hout.traceExt
          cases t1 with
          | nil =>
            rw [List.append_nil] at hdec
            rw [List.append_assoc, List.singleton_append] at htl
            rw [htl] at hdec
            have h2 := List.append_cancel_left hdec
            injection h2 with h3 h4
            injection h3 with hb5 hc5
            subst hb5
            subst hc5
            rw [applyColors_nil]
            refine ⟨hbcol, ?_, ?_⟩
            · have h : isColorValid G s' b ((next : Nat) : Int) = true := by
                rw [isColorValid_iff]
                intro w hw
                rw [hs'col]
                have hwV : w ∈ vertexList G := (hwf b hbV w hw).1
                rcases hinv.lt w hwV with h' | ⟨h1', h2'⟩
                · omega
                · omega
              rw [isColorValid_eq_validColor, hs'col] at h
              exact h
            · intro c' h0 hlt
              rw [hinv.pal] at hff
              have hmin := firstFitColor_range_none G s' b next 0 hff
              obtain ⟨n, rfl⟩ := Int.eq_ofNat_of_zero_le h0
              have hnj : n < next := by exact_mod_cast hlt
              have h := hmin n (Nat.zero_le n) (by omega)
              rw [isColorValid_eq_validColor, hs'col] at h
              exact h
          | cons p t1' =>
            rw [List.append_assoc, List.cons_append] at hdec
            rw [List.append_assoc, List.singleton_append] at htl
            rw [htl] at hdec
            have h2 := List.append_cancel_left hdec
            injection h2 with h3 h4
            have hdec' : (greedyLoop alg G fuel (setColor s' b (next : Int))
                (uncolored.filter (fun x => x != b)) (palette ++ [(next : Int)])
                (next + 1) (trace ++ [(b, (next : Int))])).trace =
                trace ++ [(b, (next : Int))] ++ t1' ++ (v0, c0) :: t2 := by
              rw [htl, h4]
              rw [List.append_assoc, List.append_assoc, List.singleton_append]
            have hres := hout.firstFit hwf t1' v0 c0 t2 hdec'
            rw [setColor_color, hs'col] at hres
            rw [← h3, applyColors_cons]
            exact hres

/-! Driver-level lemmas for the generic greedy driver. -/

theorem resetColors_of_mem (G : Graph) (s0 : ColorState) {i : Nat}
    (hi : i ∈ vertexList G) : (resetColors G.N s0).color i = -1 := by
  rcases (mem_vertexList G).1 hi with ⟨h1, h2⟩
  simp [resetColors, h1, show i ≤ G.N by omega]

theorem sorted_perm (G : Graph) :
    (List.insertionSort (degGE G) (vertexList G)).Perm (vertexList G) :=
  List.perm_insertionSort _ _

theorem mem_sorted (G : Graph) {i : Nat} :
    i ∈ List.insertionSort (degGE G) (vertexList G) ↔ i ∈ vertexList G :=
  (sorted_perm G).mem_iff

theorem sorted_nodup (G : Graph) :
    (List.insertionSort (degGE G) (vertexList G)).Nodup :=
  ((sorted_perm G).nodup_iff).2 (vertexList_nodup G)

theorem sorted_length (G : Graph) :
    (List.insertionSort (degGE G) (vertexList G)).length = G.N := by
  rw [(sorted_perm G).length_eq]
  simp [vertexList]

/-- The loop invariant holds at entry to the main loop of
`generic_greedy_coloring`, after the reset and the coloring of the first
sorted vertex with color 0. -/
theorem generic_entry_inv (G : Graph) (s0 : ColorState) {init : Nat}
    {restSorted : List Nat}
    (hsort : List.insertionSort (degGE G) (vertexList G) = init :: restSorted) :
    LoopInv G (setColor (resetColors G.N s0) init 0)
      ((init :: restSorted).filter (fun x => x != init)) [0] 1 := by
  have hinitV : init ∈ vertexList G := by
    rw [← mem_sorted G, hsort]
    exact List.mem_cons_self _ _
  have hnd : (init :: restSorted).Nodup := by
    rw [← hsort]
    exact sorted_nodup G
  have hmemV : ∀ i, i ∈ init :: restSorted ↔ i ∈ vertexList G := by
    intro i
    rw [← hsort]
    exact mem_sorted G
  refine ⟨?_, hnd.filter _, ?_, ?_, by decide, ?_, le_refl 1, ?_⟩
  · intro i hi
    exact (hmemV i).1 (mem_filter_ne.1 hi).1
  · intro i hi
    rw [setColor_color, Function.update_apply]
    by_cases hii : i = init
    · rw [if_pos hii]
      constructor
      · intro h
        exact absurd h (by decide)
      · intro hmem
        exact absurd hii (mem_filter_ne.1 hmem).2
    · rw [if_neg hii, resetColors_of_mem G s0 hi]
      simp only [mem_filter_ne]
      exact ⟨fun _ => ⟨(hmemV i).2 hi, hii⟩, fun _ => by trivial⟩
  · intro i hi
    rw [setColor_color, Function.update_apply]
    by_cases hii : i = init
    · rw [if_pos hii]
      refine Or.inr ⟨by decide, by decide⟩
    · rw [if_neg hii]
      exact Or.inl (resetColors_of_mem G s0 hi)
  · intro c h0 h1
    have hc0 : c = 0 := by
      have : ((1 : Nat) : Int) = 1 := by decide
      omega
    refine ⟨init, hinitV, ?_⟩
    rw [setColor_color, Function.update_same, hc0]
  · intro hwf hlf u huV v hv
    rw [setColor_color, Function.update_apply, Function.update_apply]
    by_cases hui : u = init
    · rw [if_pos hui]
      intro _
      have hvi : v ≠ init := by
        intro h
        have hvu : v = u := h.trans hui.symm
        rw [hvu] at hv
        exact hlf u huV hv
      rw [if_neg hvi]
      have hvV : v ∈ vertexList G := (hwf u huV v hv).1
      rw [resetColors_of_mem G s0 hvV]
      decide
    · rw [if_neg hui]
      rw [resetColors_of_mem G s0 huV]
      intro h
      exact absurd rfl h

/-- On the empty graph the generic driver returns 0 colors and an empty
palette and trace, with no warning. -/
theorem generic_empty (alg : Alg) (G : Graph) (s0 : ColorState) (hN : G.N = 0) :
    generic_greedy_coloring alg G s0 = ⟨0, resetColors G.N s0, [], [], false⟩ := by
  have hv : vertexList G = [] := by
    simp [vertexList, hN]
  simp only [generic_greedy_coloring, hv]
  rfl

/-- On a non-empty graph the generic driver colors the head of the sorted
list with color 0 and then satisfies the main-loop postcondition. -/
theorem generic_main (alg : Alg) (G : Graph) (s0 : ColorState) (hN : G.N ≠ 0) :
    ∃ init restSorted,
      List.insertionSort (degGE G) (vertexList G) = init :: restSorted ∧
      init ∈ vertexList G ∧
      LoopOut G (setColor (resetColors G.N s0) init 0)
        (generic_greedy_coloring alg G s0)
        ((init :: restSorted).filter (fun x => x != init)) 1 [(init, 0)] := by
  cases hsort : List.insertionSort (degGE G) (vertexList G) with
  | nil =>
    exfalso
    have h := sorted_length G
    rw [hsort] at h
    simp at h
    exact hN h.symm
  | cons init restSorted =>
    have hinitV : init ∈ vertexList G := by
      rw [← mem_sorted G, hsort]
      exact List.mem_cons_self _ _
    have hinv := generic_entry_inv G s0 hsort
    have hfuel : ((init :: restSorted).filter (fun x => x != init)).length ≤ G.N := by
      have hnd : (init :: restSorted).Nodup := by
        rw [← hsort]
        exact sorted_nodup G
      have h1 := length_filter_ne hnd (List.mem_cons_self init restSorted)
      have h2 : (init :: restSorted).length = G.N := by
        rw [← hsort]
        exact sorted_length G
      omega
    have hred : generic_greedy_coloring alg G s0 =
        greedyLoop alg G G.N (setColor (resetColors G.N s0) init 0)
          ((init :: restSorted).filter (fun x => x != init)) [0] 1 [(init, 0)] := by
      simp only [generic_greedy_coloring, hsort]
    refine ⟨init, restSorted, rfl, hinitV, ?_⟩
    rw [hred]
    exact greedyLoop_master alg G G.N _ _ _ 1 _ hinv hfuel

/-! Characterization of `find_max_degree_uncolored_vertex`. -/

theorem findMaxDegAux_acc (G : Graph) (s : ColorState) :
    ∀ (l : List Nat) (b : Nat),
      findMaxDegAux G s l (some b) =
        match firstMaxUncolored G s l with
        | none => some b
        | some v => if G.deg v > G.deg b then some v else some b := by
  intro l
  induction l with
  | nil => intro b; rfl
  | cons i rest ih =>
    intro b
    by_cases hc : s.color i = -1
    · rcases hf : firstMaxUncolored G s rest with _ | w
      · simp only [findMaxDegAux, if_pos hc, firstMaxUncolored, hf]
        by_cases hd : G.deg i > G.deg b
        · rw [if_pos hd, ih i]
          simp only [hf]
          rw [if_pos hd]
        · rw [if_neg hd, ih b]
          simp only [hf]
          rw [if_neg hd]
      · by_cases hiw : G.deg i ≥ G.deg w
        · simp only [findMaxDegAux, if_pos hc, firstMaxUncolored, hf, if_pos hiw]
          by_cases hd : G.deg i > G.deg b
          · rw [if_pos hd, ih i]
            simp only [hf]
            rw [if_neg (by omega : ¬G.deg w > G.deg i), if_pos hd]
          · rw [if_neg hd, ih b]
            simp only [hf]
            rw [if_neg (by omega : ¬G.deg w > G.deg b), if_neg hd]
        · simp only [findMaxDegAux, if_pos hc, firstMaxUncolored, hf, if_neg hiw]
          by_cases hd : G.deg i > G.deg b
          · rw [if_pos hd, ih i]
            simp only [hf]
            rw [if_pos (by omega : G.deg w > G.deg i),
              if_pos (by omega : G.deg w > G.deg b)]
          · rw [if_neg hd, ih b]
            simp only [hf]
    · simp only [findMaxDegAux, if_neg hc, firstMaxUncolored]
      exact ih b

theorem findMaxDegAux_none_acc (G : Graph) (s : ColorState) :
    ∀ l : List Nat, findMaxDegAux G s l none = firstMaxUncolored G s l := by
  intro l
  induction l with
  | nil => rfl
  | cons i rest ih =>
    by_cases hc : s.color i = -1
    · simp only [findMaxDegAux, if_pos hc, firstMaxUncolored]
      rw [findMaxDegAux_acc G s rest i]
      rcases hf : firstMaxUncolored G s rest with _ | w
      · simp only [hf]
      · simp only [hf]
        by_cases hiw : G.deg i ≥ G.deg w
        · rw [if_neg (by omega : ¬G.deg w > G.deg i), if_pos hiw]
        · rw [if_pos (by omega : G.deg w > G.deg i), if_neg hiw]
    · simp only [findMaxDegAux, if_neg hc, firstMaxUncolored]
      exact ih

theorem find_max_degree_eq_spec (G : Graph) (s : ColorState) :
    find_max_degree_uncolored_vertex G s = firstMaxUncolored G s (vertexList G) :=
  findMaxDegAux_none_acc G s (vertexList G)

theorem firstMaxUncolored_mem (G : Graph) (s : ColorState) :
    ∀ (l : List Nat) (v : Nat), firstMaxUncolored G s l = some v →
      v ∈ l ∧ s.color v = -1 := by
  intro l
  induction l with
  | nil => intro v h; exact Option.noConfusion h
  | cons i rest ih =>
    intro v h
    by_cases hc : s.color i = -1
    · simp only [firstMaxUncolored, if_pos hc] at h
      rcases hf : firstMaxUncolored G s rest with _ | w
      · simp only [hf] at h
        rcases Option.some_inj.1 h with rfl
        exact ⟨List.mem_cons_self _ _, hc⟩
      · simp only [hf] at h
        by_cases hiw : G.deg i ≥ G.deg w
        · rw [if_pos hiw] at h
          rcases Option.some_inj.1 h with rfl
          exact ⟨List.mem_cons_self _ _, hc⟩
        · rw [if_neg hiw] at h
          rcases Option.some_inj.1 h with rfl
          obtain ⟨h1, h2⟩ := ih w hf
          exact ⟨List.mem_cons_of_mem _ h1, h2⟩
    · simp only [firstMaxUncolored, if_neg hc] at h
      obtain ⟨h1, h2⟩ := ih v h
      exact ⟨List.mem_cons_of_mem _ h1, h2⟩

theorem firstMaxUncolored_none_mem (G : Graph) (s : ColorState) :
    ∀ l : List Nat, firstMaxUncolored G s l = none ↔ ∀ i ∈ l, ¬(s.color i = -1) := by
  intro l
  induction l with
  | nil => simp [firstMaxUncolored]
  | cons i rest ih =>
    by_cases hc : s.color i = -1
    · simp only [firstMaxUncolored, if_pos hc]
      constructor
      · intro h
        rcases hf : firstMaxUncolored G s rest with _ | w
        · simp only [hf] at h
          exact Option.noConfusion h
        · simp only [hf] at h
          by_cases hiw : G.deg i ≥ G.deg w
          · rw [if_pos hiw] at h
            exact Option.noConfusion h
          · rw [if_neg hiw] at h
            exact Option.noConfusion h
      · intro h
        exact absurd hc (h i (List.mem_cons_self _ _))
    · simp only [firstMaxUncolored, if_neg hc]
      constructor
      · intro h j hj
        rcases List.mem_cons.1 hj with rfl | hjr
        · exact hc
        · exact (ih.1 h) j hjr
      · intro h
        exact ih.2 (fun j hj => h j (List.mem_cons_of_mem _ hj))

theorem firstMaxUncolored_max (G : Graph) (s : ColorState) :
    ∀ (l : List Nat) (v : Nat), firstMaxUncolored G s l = some v →
      ∀ i ∈ l, s.color i = -1 → G.deg i ≤ G.deg v := by
  intro l
  induction l with
  | nil => intro v _ i hi; exact absurd hi (List.not_mem_nil i)
  | cons j rest ih =>
    intro v h i hi hic
    by_cases hc : s.color j = -1
    · simp only [firstMaxUncolored, if_pos hc] at h
      rcases hf : firstMaxUncolored G s rest with _ | w
      · simp only [hf] at h
        rcases Option.some_inj.1 h with rfl
        rcases List.mem_cons.1 hi with rfl | hir
        · exact le_refl _
        · exact absurd hic (((firstMaxUncolored_none_mem G s rest).1 hf) i hir)
      · simp only [hf] at h
        by_cases hiw : G.deg j ≥ G.deg w
        · rw [if_pos hiw] at h
          rcases Option.some_inj.1 h with rfl
          rcases List.mem_cons.1 hi with rfl | hir
          · exact le_refl _
          · exact le_trans (ih w hf i hir hic) hiw
        · rw [if_neg hiw] at h
          rcases Option.some_inj.1 h with rfl
          rcases List.mem_cons.1 hi with rfl | hir
          · omega
          · exact ih w hf i hir hic
    · simp only [firstMaxUncolored, if_neg hc] at h
      rcases List.mem_cons.1 hi with rfl | hir
      · exact absurd hic hc
      · exact ih v h i hir hic

theorem firstMaxUncolored_first (G : Graph) (s : ColorState) :
    ∀ (l : List Nat) (v : Nat), firstMaxUncolored G s l = some v →
      ∃ l₁ l₂, l = l₁ ++ v :: l₂ ∧ ∀ i ∈ l₁, s.color i = -1 → G.deg i < G.deg v := by
  intro l
  induction l with
  | nil => intro v h; exact Option.noConfusion h
  | cons j rest ih =>
    intro v h
    by_cases hc : s.color j = -1
    · simp only [firstMaxUncolored, if_pos hc] at h
      rcases hf : firstMaxUncolored G s rest with _ | w
      · simp only [hf] at h
        rcases Option.some_inj.1 h with rfl
        exact ⟨[], rest, rfl, by simp⟩
      · simp only [hf] at h
        by_cases hiw : G.deg j ≥ G.deg w
        · rw [if_pos hiw] at h
          rcases Option.some_inj.1 h with rfl
          exact ⟨[], rest, rfl, by simp⟩
        · rw [if_neg hiw] at h
          rcases Option.some_inj.1 h with rfl
          obtain ⟨l₁, l₂, hsplit, hlt⟩ := ih w hf
          refine ⟨j :: l₁, l₂, by rw [hsplit]; rfl, ?_⟩
          intro i hi hic
          rcases List.mem_cons.1 hi with rfl | hil
          · omega
          · exact hlt i hil hic
    · simp only [firstMaxUncolored, if_neg hc] at h
      obtain ⟨l₁, l₂, hsplit, hlt⟩ := ih v h
      refine ⟨j :: l₁, l₂, by rw [hsplit]; rfl, ?_⟩
      intro i hi hic
      rcases List.mem_cons.1 hi with rfl | hil
      · exact absurd hic hc
      · exact hlt i hil hic

/-- `find_max_degree_uncolored_vertex` returns precisely the
first-encountered uncolored vertex of maximum degree. -/
theorem find_max_degree_isFirstMax (G : Graph) (s : ColorState) (v : Nat)
    (h : find_max_degree_uncolored_vertex G s = some v) : IsFirstMaxDeg G s v := by
  rw [find_max_degree_eq_spec] at h
  obtain ⟨hmem, hcol⟩ := firstMaxUncolored_mem G s (vertexList G) v h
  have hmax := firstMaxUncolored_max G s (vertexList G) v h
  obtain ⟨l₁, l₂, hsplit, hlt⟩ := firstMaxUncolored_first G s (vertexList G) v h
  refine ⟨hmem, hcol, hmax, ?_⟩
  intro u huV hulv huc
  have hpw : (vertexList G).Pairwise (· < ·) := List.pairwise_lt_range' 1 G.N 1
  rw [hsplit] at hpw
  rw [hsplit] at huV
  rcases List.mem_append.1 huV with h1 | h2
  · exact hlt u h1 huc
  · exfalso
    rcases List.mem_cons.1 h2 with rfl | h3
    · omega
    · have := (List.pairwise_append.1 hpw).2.1
      have hvu : v < u := (List.pairwise_cons.1 this).1 u h3
      omega

/-- `find_max_degree_uncolored_vertex` returns `none` exactly when no
uncolored vertex remains. -/
theorem find_max_degree_none (G : Graph) (s : ColorState) :
    find_max_degree_uncolored_vertex G s = none ↔
      ∀ i ∈ vertexList G, ¬(s.color i = -1) := by
  rw [find_max_degree_eq_spec]
  exact firstMaxUncolored_none_mem G s (vertexList G)

/-! Lemmas about the RLF candidate scan, the forbidden set and the
uncolored-vertex count. -/

theorem pickCand_cases (G : Graph) (s : ColorState) (k : Nat)
    (cand : Option (Nat × Int)) :
    pickCand G s k cand = some (k, s.heur k) ∨ pickCand G s k cand = cand := by
  rcases cand with _ | ⟨b, maxAdj⟩
  · exact Or.inl rfl
  · simp only [pickCand]
    split
    · exact Or.inl rfl
    · exact Or.inr rfl

theorem pickCand_ne_none (G : Graph) (s : ColorState) (k : Nat)
    (cand : Option (Nat × Int)) : pickCand G s k cand ≠ none := by
  rcases cand with _ | ⟨b, maxAdj⟩
  · exact fun h => Option.noConfusion h
  · simp only [pickCand]
    split
    · exact fun h => Option.noConfusion h
    · exact fun h => Option.noConfusion h

theorem rlfScan_color (G : Graph) (forb : Nat → Bool) :
    ∀ (l : List Nat) (s : ColorState) (cand : Option (Nat × Int)),
      ((rlfScan G forb l s cand).2).color = s.color := by
  intro l
  induction l with
  | nil => intro s cand; rfl
  | cons k rest ih =>
    intro s cand
    simp only [rlfScan]
    by_cases hk : s.color k = -1 ∧ forb k = false
    · rw [if_pos hk, ih]
      rfl
    · rw [if_neg hk, ih]

theorem rlfScan_none (G : Graph) (forb : Nat → Bool) :
    ∀ (l : List Nat) (s : ColorState) (cand : Option (Nat × Int)),
      (rlfScan G forb l s cand).1 = none →
      cand = none ∧ ∀ k ∈ l, ¬(s.color k = -1 ∧ forb k = false) := by
  intro l
  induction l with
  | nil => intro s cand h; exact ⟨h, fun k hk => absurd hk (List.not_mem_nil k)⟩
  | cons k rest ih =>
    intro s cand h
    simp only [rlfScan] at h
    by_cases hk : s.color k = -1 ∧ forb k = false
    · rw [if_pos hk] at h
      obtain ⟨hc, _⟩ := ih _ _ h
      exact absurd hc (pickCand_ne_none _ _ _ _)
    · rw [if_neg hk] at h
      obtain ⟨hc, hall⟩ := ih _ _ h
      refine ⟨hc, ?_⟩
      intro j hj
      rcases List.mem_cons.1 hj with rfl | hjr
      · exact hk
      · exact hall j hjr

theorem rlfScan_some (G : Graph) (forb : Nat → Bool) :
    ∀ (l : List Nat) (s : ColorState) (cand : Option (Nat × Int)) (k : Nat) (h : Int),
      (rlfScan G forb l s cand).1 = some (k, h) →
      (k ∈ l ∧ s.color k = -1 ∧ forb k = false) ∨ cand = some (k, h) := by
  intro l
  induction l with
  | nil => intro s cand k h hs; exact Or.inr hs
  | cons j rest ih =>
    intro s cand k h hs
    simp only [rlfScan] at hs
    by_cases hj : s.color j = -1 ∧ forb j = false
    · rw [if_pos hj] at hs
      rcases ih _ _ _ _ hs with h1 | h1
      · exact Or.inl ⟨List.mem_cons_of_mem _ h1.1, h1.2⟩
      · rcases pickCand_cases G (setHeur s j (((G.nbrs j).filter (fun nb => forb nb)).length)) j cand with hp | hp
        · rw [h1] at hp
          have hjk : j = k := congrArg (fun o => (Option.getD o (0, 0)).1) hp.symm
          subst hjk
          exact Or.inl ⟨List.mem_cons_self _ _, hj⟩
        · rw [h1] at hp
          exact Or.inr hp.symm
    · rw [if_neg hj] at hs
      rcases ih _ _ _ _ hs with h1 | h1
      · exact Or.inl ⟨List.mem_cons_of_mem _ h1.1, h1.2⟩
      · exact Or.inr h1

theorem addForbidden_nil (forb : Nat → Bool) : addForbidden forb [] = forb := rfl

theorem addForbidden_of_base :
    ∀ (l : List Nat) (forb : Nat → Bool) (x : Nat), forb x = true →
      addForbidden forb l x = true := by
  intro l
  induction l with
  | nil => intro forb x hx; exact hx
  | cons a rest ih =>
    intro forb x hx
    simp only [addForbidden, List.foldl_cons]
    apply ih (Function.update forb a true) x
    rw [Function.update_apply]
    split
    · rfl
    · exact hx

theorem addForbidden_of_mem :
    ∀ (l : List Nat) (forb : Nat → Bool) (x : Nat), x ∈ l →
      addForbidden forb l x = true := by
  intro l
  induction l with
  | nil => intro forb x hx; exact absurd hx (List.not_mem_nil x)
  | cons a rest ih =>
    intro forb x hx
    simp only [addForbidden, List.foldl_cons]
    rcases List.mem_cons.1 hx with rfl | hxr
    · apply addForbidden_of_base
      rw [Function.update_same]
    · exact ih (Function.update forb a true) x hxr

theorem countUncolored_congr (G : Graph) {s s' : ColorState}
    (h : s'.color = s.color) : countUncolored G s' = countUncolored G s := by
  unfold countUncolored
  rw [h]

theorem countUncolored_le (G : Graph) (s : ColorState) :
    countUncolored G s ≤ G.N := by
  have h := List.length_filter_le (fun i => s.color i == -1) (vertexList G)
  simpa [vertexList] using h

theorem countUncolored_eq_zero (G : Graph) (s : ColorState) :
    countUncolored G s = 0 ↔ ∀ i ∈ vertexList G, ¬(s.color i = -1) := by
  unfold countUncolored
  rw [List.length_eq_zero, List.filter_eq_nil_iff]
  constructor
  · intro h i hi hc
    exact h i hi (by simp [hc])
  · intro h i hi hc
    exact h i hi (by simpa using hc)

theorem length_filter_flip (k : Nat) (p q : Nat → Bool) (hpk : p k = true)
    (hqk : q k = false) (hpq : ∀ i, i ≠ k → p i = q i) :
    ∀ l : List Nat, l.Nodup → k ∈ l → (l.filter q).length + 1 = (l.filter p).length := by
  intro l
  induction l with
  | nil => intro _ hk; exact absurd hk (List.not_mem_nil k)
  | cons a rest ih =>
    intro hnd hk
    rcases List.mem_cons.1 hk with rfl | hkr
    · have hknr : k ∉ rest := (List.nodup_cons.1 hnd).1
      have heq : rest.filter q = rest.filter p := by
        apply List.filter_congr
        intro i hi
        exact (hpq i (fun h => hknr (h ▸ hi))).symm
      rw [List.filter_cons, List.filter_cons, if_neg (by simp [hqk]), if_pos hpk, heq]
      simp
    · have hak : a ≠ k := by
        rintro rfl
        exact (List.nodup_cons.1 hnd).1 hkr
      have hrec := ih (List.nodup_cons.1 hnd).2 hkr
      rw [List.filter_cons, List.filter_cons, ← hpq a hak]
      by_cases ha : p a = true
      · rw [if_pos ha, if_pos ha]
        simp only [List.length_cons]
        omega
      · rw [if_neg ha, if_neg ha]
        exact hrec

theorem countUncolored_setColor (G : Graph) (s : ColorState) {k : Nat} {c : Int}
    (hk : k ∈ vertexList G) (hkc : s.color k = -1) (hc : c ≠ -1) :
    countUncolored G (setColor s k c) + 1 = countUncolored G s := by
  unfold countUncolored
  refine length_filter_flip k (fun i => s.color i == -1)
    (fun i => (setColor s k c).color i == -1) ?_ ?_ ?_ (vertexList G)
    (vertexList_nodup G) hk
  · simp [hkc]
  · simp [setColor_color, Function.update_same, hc]
  · intro i hik
    simp [setColor_color, Function.update_noteq hik]

theorem rlfInnerInv_congr {G : Graph} {s s' : ColorState} {forb : Nat → Bool}
    {curColor total : Nat} {trace : List (Nat × Int)}
    (h : RlfInnerInv G s forb curColor total trace) (hc : s'.color = s.color) :
    RlfInnerInv G s' forb curColor total trace := by
  refine ⟨?_, ?_, ?_, ?_, ?_, h.tlen⟩
  · rw [countUncolored_congr G hc]
    exact h.count
  · intro i hi
    rw [hc]
    exact h.bound i hi
  · intro c h0 h1
    obtain ⟨i, hi, hci⟩ := h.used c h0 h1
    exact ⟨i, hi, by rw [hc]; exact hci⟩
  · intro w hw hcw x hx
    rw [hc] at hcw
    exact h.forbcl w hw hcw x hx
  · intro hwf hlf u hu v hv
    rw [hc]
    exact h.proper hwf hlf u hu v hv

/-- Invariant preservation for one step of the RLF inner loop: the selected
uncolored non-forbidden candidate receives the active color and its neighbors
join the forbidden set. -/
theorem rlfInnerInv_step (G : Graph) {s s' : ColorState} {forb : Nat → Bool}
    {curColor total : Nat} {trace : List (Nat × Int)} {k : Nat}
    (hinv : RlfInnerInv G s forb curColor total trace)
    (hs'col : s'.color = s.color)
    (hkV : k ∈ vertexList G) (hkc : s.color k = -1) (hkf : forb k = false) :
    RlfInnerInv G (setColor s' k (curColor : Int)) (addForbidden forb (G.nbrs k))
      curColor (total + 1) (trace ++ [(k, (curColor : Int))]) := by
  have hcast : (0 : Int) ≤ (curColor : Int) := Int.ofNat_nonneg curColor
  refine ⟨?_, ?_, ?_, ?_, ?_, ?_⟩
  · have hdec : countUncolored G (setColor s' k (curColor : Int)) + 1 =
        countUncolored G s := by
      have h1 : countUncolored G (setColor s' k (curColor : Int)) =
          countUncolored G (setColor s k (curColor : Int)) :=
        countUncolored_congr G (by rw [setColor_color, setColor_color, hs'col])
      rw [h1]
      exact countUncolored_setColor G s hkV hkc (by omega)
    have h2 := hinv.count
    omega
  · intro i hi
    rw [setColor_color, Function.update_apply, hs'col]
    by_cases hik : i = k
    · rw [if_pos hik]
      exact Or.inr ⟨hcast, le_refl _⟩
    · rw [if_neg hik]
      exact hinv.bound i hi
  · intro c h0 h1
    obtain ⟨i, hi, hci⟩ := hinv.used c h0 h1
    have hik : i ≠ k := by
      intro h
      rw [h, hkc] at hci
      omega
    exact ⟨i, hi, by
      rw [setColor_color, Function.update_apply, hs'col, if_neg hik]
      exact hci⟩
  · intro w hw hcw x hx
    rw [setColor_color, Function.update_apply, hs'col] at hcw
    by_cases hwk : w = k
    · exact addForbidden_of_mem (G.nbrs k) forb x (by rw [← hwk]; exact hx)
    · rw [if_neg hwk] at hcw
      exact addForbidden_of_base (G.nbrs k) forb x (hinv.forbcl w hw hcw x hx)
  · intro hwf hlf u hu v hv
    have hval : ∀ w ∈ G.nbrs k, s.color w ≠ (curColor : Int) := by
      intro w hw hcw
      have hwV : w ∈ vertexList G := (hwf k hkV w hw).1
      have hfb := hinv.forbcl w hwV hcw k ((hwf k hkV w hw).2)
      rw [hkf] at hfb
      exact Bool.noConfusion hfb
    rw [setColor_color, Function.update_apply, Function.update_apply, hs'col]
    by_cases huk : u = k
    · rw [if_pos huk]
      intro _
      have hvk : v ≠ k := by
        intro h
        have hvu : v = u := h.trans huk.symm
        rw [hvu] at hv
        exact hlf u hu hv
      rw [if_neg hvk]
      have hv' : v ∈ G.nbrs k := by
        rw [← huk]
        exact hv
      exact fun h => hval v hv' h.symm
    · rw [if_neg huk]
      intro hucol
      by_cases hvk : v = k
      · rw [if_pos hvk]
        have humem : u ∈ G.nbrs k := by
          have h2 := (hwf u hu v hv).2
          rwa [hvk] at h2
        exact hval u humem
      · rw [if_neg hvk]
        exact hinv.proper hwf hlf u hu v hv hucol
  · rw [hinv.tlen]
    simp

/-- The master theorem about the RLF inner loop: with sufficient fuel it
terminates via the no-candidate exit, preserving the inner invariant, and
upon exit every uncolored vertex is forbidden.  If the forbidden set starts
empty and the graph has no edges, it also ends empty. -/
theorem rlfInner_master (G : Graph) :
    ∀ (fuel : Nat) (s : ColorState) (forb : Nat → Bool) (curColor total : Nat)
      (trace : List (Nat × Int)),
      RlfInnerInv G s forb curColor total trace →
      countUncolored G s < fuel →
      ∃ s2 forb2 total2 trace2,
        rlfInner G fuel s forb (curColor : Int) total trace = (s2, forb2, total2, trace2) ∧
        RlfInnerInv G s2 forb2 curColor total2 trace2 ∧
        total ≤ total2 ∧
        (∃ tl, trace2 = trace ++ tl) ∧
        (∀ k ∈ vertexList G, ¬(s2.color k = -1 ∧ forb2 k = false)) ∧
        ((∀ x, forb x = false) → EdgeFree G → ∀ x, forb2 x = false) := by
  intro fuel
  induction fuel with
  | zero =>
    intro s forb curColor total trace _ hfuel
    omega
  | succ fuel ih =>
    intro s forb curColor total trace hinv hfuel
    rcases hscan : rlfScan G forb (vertexList G) s none with ⟨cand, s'⟩
    have hs'col : s'.color = s.color := by
      have h := rlfScan_color G forb (vertexList G) s none
      rw [hscan] at h
      exact h
    rcases cand with _ | ⟨k, hk⟩
    · refine ⟨s', forb, total, trace, ?_, ?_, le_refl _, ⟨[], by simp⟩, ?_, ?_⟩
      · simp only [rlfInner, hscan]
      · exact rlfInnerInv_congr hinv hs'col
      · intro j hj hj12
        obtain ⟨hj1, hj2⟩ := hj12
        have h2 := (rlfScan_none G forb (vertexList G) s none (by rw [hscan])).2 j hj
        rw [hs'col] at hj1
        exact h2 ⟨hj1, hj2⟩
      · intro hf _ x
        exact hf x
    · have hkprop : k ∈ vertexList G ∧ s.color k = -1 ∧ forb k = false := by
        rcases rlfScan_some G forb (vertexList G) s none k hk (by rw [hscan]) with h | h
        · exact h
        · exact Option.noConfusion h
      obtain ⟨hkV, hkc, hkf⟩ := hkprop
      have hinv' := rlfInnerInv_step G hinv hs'col hkV hkc hkf
      have hdec : countUncolored G (setColor s' k (curColor : Int)) + 1 =
          countUncolored G s := by
        have h1 : countUncolored G (setColor s' k (curColor : Int)) =
            countUncolored G (setColor s k (curColor : Int)) :=
          countUncolored_congr G (by rw [setColor_color, setColor_color, hs'col])
        rw [h1]
        exact countUncolored_setColor G s hkV hkc (by omega)
      obtain ⟨s2, forb2, total2, trace2, heq, hinv2, hle, htlex, hnc, hforb⟩ :=
        ih (setColor s' k (curColor : Int)) (addForbidden forb (G.nbrs k)) curColor
          (total + 1) (trace ++ [(k, (curColor : Int))]) hinv' (by omega)
      obtain ⟨tl, htl⟩ := htlex
      refine ⟨s2, forb2, total2, trace2, ?_, hinv2, by omega, ?_, hnc, ?_⟩
      · simp only [rlfInner, hscan, heq]
      · refine ⟨(k, (curColor : Int)) :: tl, ?_⟩
        rw [htl]
        simp
      · intro hf hef x
        have hnbrs : G.nbrs k = [] := hef k hkV
        refine hforb ?_ hef x
        intro y
        rw [hnbrs, addForbidden_nil]
        exact hf y

/-- The terminal RLF outer result once all vertices are colored. -/
theorem rlfOut_terminal (G : Graph) (s : ColorState) (curColor total : Nat)
    (trace : List (Nat × Int)) (hinv : RlfInv G s curColor total trace)
    (htot : G.N ≤ total) :
    RlfOut G s ⟨curColor, s, trace, false⟩ curColor total trace := by
  have hcu : countUncolored G s = 0 := by
    have h := hinv.count
    omega
  have hcol : AllColored G s := by
    intro i hi
    exact (countUncolored_eq_zero G s).1 hcu i hi
  refine ⟨hcol, ?_, hinv.used, ?_, rfl, le_refl _, ?_, ⟨[], by simp⟩, ?_, ?_⟩
  · intro i hi
    rcases hinv.bound i hi with h | h
    · exact absurd h (hcol i hi)
    · exact h
  · intro hwf hlf u hu v hv
    exact hinv.proper hwf hlf u hu v hv (hcol u hu)
  · intro _ hlt
    omega
  · have h := hinv.count
    rw [← hinv.tlen]
    omega
  · intro hlt
    omega

/-- The RLF outer loop exits immediately once the colored count reaches the
vertex count. -/
theorem rlfOuter_exit (G : Graph) (fuel : Nat) (s : ColorState)
    (curColor total : Nat) (trace : List (Nat × Int)) (h : ¬(total < G.N)) :
    rlfOuter G fuel s curColor total trace = ⟨curColor, s, trace, false⟩ := by
  cases fuel with
  | zero => rfl
  | succ fuel => simp only [rlfOuter, if_neg h]

/-- Invariant establishment when a new class is seeded with an uncolored
vertex. -/
theorem rlfSeedInv (G : Graph) {s : ColorState} {curColor total : Nat}
    {trace : List (Nat × Int)} {vi : Nat}
    (hinv : RlfInv G s curColor total trace)
    (hviV : vi ∈ vertexList G) (hvic : s.color vi = -1) :
    RlfInnerInv G (setColor s vi (curColor : Int))
      (addForbidden (fun _ => false) (G.nbrs vi)) curColor (total + 1)
      (trace ++ [(vi, (curColor : Int))]) := by
  have hcast : (0 : Int) ≤ (curColor : Int) := Int.ofNat_nonneg curColor
  refine ⟨?_, ?_, ?_, ?_, ?_, ?_⟩
  · have hdec : countUncolored G (setColor s vi (curColor : Int)) + 1 =
        countUncolored G s :=
      countUncolored_setColor G s hviV hvic (by omega)
    have h2 := hinv.count
    omega
  · intro i hi
    rw [setColor_color, Function.update_apply]
    by_cases hik : i = vi
    · rw [if_pos hik]
      exact Or.inr ⟨hcast, le_refl _⟩
    · rw [if_neg hik]
      rcases hinv.bound i hi with h | ⟨h1, h2⟩
      · exact Or.inl h
      · exact Or.inr ⟨h1, by omega⟩
  · intro c h0 h1
    by_cases hc : c = (curColor : Int)
    · refine ⟨vi, hviV, ?_⟩
      rw [setColor_color, Function.update_same, hc]
    · have h1' : c < (curColor : Int) := by omega
      obtain ⟨i, hi, hci⟩ := hinv.used c h0 h1'
      have hik : i ≠ vi := by
        intro h
        rw [h, hvic] at hci
        omega
      exact ⟨i, hi, by
        rw [setColor_color, Function.update_apply, if_neg hik]
        exact hci⟩
  · intro w hw hcw x hx
    rw [setColor_color, Function.update_apply] at hcw
    by_cases hwk : w = vi
    · exact addForbidden_of_mem (G.nbrs vi) _ x (by rw [← hwk]; exact hx)
    · rw [if_neg hwk] at hcw
      exfalso
      rcases hinv.bound w hw with h | ⟨_, h2⟩
      · rw [h] at hcw
        omega
      · rw [hcw] at h2
        omega
  · intro hwf hlf u hu v hv
    have hval : ∀ w ∈ vertexList G, w ≠ vi → s.color w ≠ (curColor : Int) := by
      intro w hwV _ hcw
      rcases hinv.bound w hwV with h | ⟨_, h2⟩
      · rw [h] at hcw
        omega
      · rw [hcw] at h2
        omega
    rw [setColor_color, Function.update_apply, Function.update_apply]
    by_cases huk : u = vi
    · rw [if_pos huk]
      intro _
      have hvk : v ≠ vi := by
        intro h
        have hvu : v = u := h.trans huk.symm
        rw [hvu] at hv
        exact hlf u hu hv
      rw [if_neg hvk]
      have hvV : v ∈ vertexList G := (hwf u hu v hv).1
      exact fun h => hval v hvV hvk h.symm
    · rw [if_neg huk]
      intro hucol
      by_cases hvk : v = vi
      · rw [if_pos hvk]
        exact hval u hu huk
      · rw [if_neg hvk]
        exact hinv.proper hwf hlf u hu v hv hucol
  · rw [hinv.tlen]
    simp

/-- The master theorem about the RLF outer loop. -/
theorem rlfOuter_master (G : Graph) :
    ∀ (fuel : Nat) (s : ColorState) (curColor total : Nat) (trace : List (Nat × Int)),
      RlfInv G s curColor total trace →
      G.N ≤ fuel + total →
      RlfOut G s (rlfOuter G fuel s curColor total trace) curColor total trace := by
  intro fuel
  induction fuel with
  | zero =>
    intro s curColor total trace hinv hfuel
    exact rlfOut_terminal G s curColor total trace hinv (by omega)
  | succ fuel ih =>
    intro s curColor total trace hinv hfuel
    by_cases htot : total < G.N
    · rcases hfind : find_max_degree_uncolored_vertex G s with _ | vi
      · exfalso
        have hall := (find_max_degree_none G s).1 hfind
        have hcu : countUncolored G s = 0 := (countUncolored_eq_zero G s).2 hall
        have h := hinv.count
        omega
      · obtain ⟨hviV, hvic, _, _⟩ := find_max_degree_isFirstMax G s vi hfind
        have hseed := rlfSeedInv G hinv hviV hvic
        have hcu_lt : countUncolored G (setColor s vi (curColor : Int)) < G.N + 1 := by
          have h := countUncolored_le G (setColor s vi (curColor : Int))
          omega
        obtain ⟨s2, forb2, total2, trace2, heq, hinv2, hle2, htlex2, hnc2, hforb2⟩ :=
          rlfInner_master G (G.N + 1) (setColor s vi (curColor : Int))
            (addForbidden (fun _ => false) (G.nbrs vi)) curColor (total + 1)
            (trace ++ [(vi, (curColor : Int))]) hseed hcu_lt
        have hinv3 : RlfInv G s2 (curColor + 1) total2 trace2 := by
          refine ⟨hinv2.count, ?_, ?_, hinv2.proper, hinv2.tlen⟩
          · intro i hi
            rcases hinv2.bound i hi with h | ⟨h1, h2⟩
            · exact Or.inl h
            · exact Or.inr ⟨h1, by omega⟩
          · intro c h0 h1
            exact hinv2.used c h0 (by omega)
        have hout := ih s2 (curColor + 1) total2 trace2 hinv3 (by omega)
        have hred : rlfOuter G (fuel + 1) s curColor total trace =
            rlfOuter G fuel s2 (curColor + 1) total2 trace2 := by
          simp only [rlfOuter, if_pos htot, hfind, heq]
        rw [hred]
        obtain ⟨tl2, htl2⟩ := htlex2
        refine ⟨hout.colored, hout.bound, hout.used, hout.valid, hout.warned,
          le_trans (Nat.le_succ curColor) hout.mono, ?_, ?_, hout.traceLen, ?_⟩
        · intro hef _
          have hforb0 : ∀ x, addForbidden (fun _ => false) (G.nbrs vi) x = false := by
            intro x
            rw [hef vi hviV, addForbidden_nil]
          have hforb2' : ∀ x, forb2 x = false := hforb2 hforb0 hef
          have hall2 : ∀ k ∈ vertexList G, ¬(s2.color k = -1) := by
            intro k hk hkc
            exact hnc2 k hk ⟨hkc, hforb2' k⟩
          have hcu2 : countUncolored G s2 = 0 := (countUncolored_eq_zero G s2).2 hall2
          have htot2 : G.N ≤ total2 := by
            have h := hinv2.count
            omega
          rw [rlfOuter_exit G fuel s2 (curColor + 1) total2 trace2 (by omega)]
        · obtain ⟨tl3, htl3⟩ := hout.traceExt
          refine ⟨(vi, (curColor : Int)) :: (tl2 ++ tl3), ?_⟩
          rw [htl3, htl2]
          simp
        · intro _
          obtain ⟨tl3, htl3⟩ := hout.traceExt
          refine ⟨vi, tl2 ++ tl3, hfind, ?_⟩
          rw [htl3, htl2]
          simp
    · rw [rlfOuter_exit G (fuel + 1) s curColor total trace htot]
      exact rlfOut_terminal G s curColor total trace hinv (by omega)

/-- The RLF driver satisfies the outer-loop postcondition from a fresh reset
state. -/
theorem RLF_main (G : Graph) (s0 : ColorState) :
    RlfOut G (resetColors G.N s0) (RLF_coloring G s0) 0 0 [] := by
  have hinv : RlfInv G (resetColors G.N s0) 0 0 [] := by
    refine ⟨?_, ?_, ?_, ?_, rfl⟩
    · unfold countUncolored
      have hall : ∀ i ∈ vertexList G, ((resetColors G.N s0).color i == -1) = true := by
        intro i hi
        simp [resetColors_of_mem G s0 hi]
      rw [List.filter_eq_self.2 hall]
      simp [vertexList]
    · intro i hi
      exact Or.inl (resetColors_of_mem G s0 hi)
    · intro c h0 h1
      exfalso
      omega
    · intro _ _ u hu v hv hucol
      exact absurd (resetColors_of_mem G s0 hu) hucol
  exact rlfOuter_master G G.N (resetColors G.N s0) 0 0 [] hinv (by omega)

/-- On the empty graph the RLF driver returns 0 colors, an empty trace and no
warning. -/
theorem RLF_empty (G : Graph) (s0 : ColorState) (hN : G.N = 0) :
    RLF_coloring G s0 = ⟨0, resetColors G.N s0, [], false⟩ := by
  unfold RLF_coloring
  rw [hN]
  rfl

/-- A fully colored proper coloring of a graph with at least one edge uses at
least two colors. -/
theorem two_le_of_edge (G : Graph) (s : ColorState) (k : Nat)
    (hwf : WellFormed G)
    (hbound : ∀ i ∈ vertexList G, 0 ≤ s.color i ∧ s.color i < (k : Int))
    (hvalid : ValidColoring G s) (hedge : ¬EdgeFree G) : 2 ≤ k := by
  unfold EdgeFree at hedge
  push_neg at hedge
  obtain ⟨i, hiV, hinb⟩ := hedge
  rcases hj : G.nbrs i with _ | ⟨j, rest⟩
  · exact absurd hj hinb
  have hjnb : j ∈ G.nbrs i := by
    rw [hj]
    exact List.mem_cons_self _ _
  have hjV : j ∈ vertexList G := (hwf i hiV j hjnb).1
  have hne := hvalid i hiV j hjnb
  obtain ⟨hi0, hik⟩ := hbound i hiV
  obtain ⟨hj0, hjk⟩ := hbound j hjV
  by_contra hk
  push_neg at hk
  interval_cases k
  · omega
  · have h1 : s.color i = 0 := by omega
    have h2 : s.color j = 0 := by omega
    exact hne (h1.trans h2.symm)

/-! The head of the degree-descending sort is the first-encountered
maximum-degree vertex. -/

theorem head_orderedInsert_cons (G : Graph) (a b : Nat) (L' : List Nat) :
    (List.orderedInsert (degGE G) a (b :: L')).head? =
      if G.deg b ≤ G.deg a then some a else some b := by
  simp only [List.orderedInsert]
  by_cases h : degGE G a b
  · rw [if_pos h, if_pos (show G.deg b ≤ G.deg a from h)]
    rfl
  · rw [if_neg h, if_neg (show ¬(G.deg b ≤ G.deg a) from h)]
    rfl

theorem head_insertionSort (G : Graph) :
    ∀ l : List Nat, (List.insertionSort (degGE G) l).head? = firstMaxAll G l := by
  intro l
  induction l with
  | nil => rfl
  | cons i rest ih =>
    simp only [List.insertionSort]
    rcases hs : List.insertionSort (degGE G) rest with _ | ⟨b, L'⟩
    · have h0 : firstMaxAll G rest = none := by
        rw [← ih, hs]
        rfl
      simp only [firstMaxAll, h0]
      rfl
    · have h0 : firstMaxAll G rest = some b := by
        rw [← ih, hs]
        rfl
      rw [head_orderedInsert_cons]
      simp only [firstMaxAll, h0]

theorem firstMaxUncolored_eq_all (G : Graph) (s : ColorState) :
    ∀ l : List Nat, (∀ i ∈ l, s.color i = -1) →
      firstMaxUncolored G s l = firstMaxAll G l := by
  intro l
  induction l with
  | nil => intro _; rfl
  | cons i rest ih =>
    intro h
    have hc : s.color i = -1 := h i (List.mem_cons_self _ _)
    have hrest := ih (fun j hj => h j (List.mem_cons_of_mem _ hj))
    simp only [firstMaxUncolored, firstMaxAll, if_pos hc, hrest]

/-- The first vertex the generic driver colors is the first-encountered
maximum-degree vertex of the freshly reset state — it agrees with
`find_max_degree_uncolored_vertex`. -/
theorem generic_first_isFirstMax (G : Graph) (s0 : ColorState) {init : Nat}
    {restSorted : List Nat}
    (hsort : List.insertionSort (degGE G) (vertexList G) = init :: restSorted) :
    IsFirstMaxDeg G (resetColors G.N s0) init := by
  have h1 : firstMaxAll G (vertexList G) = some init := by
    rw [← head_insertionSort, hsort]
    rfl
  have hall : ∀ i ∈ vertexList G, (resetColors G.N s0).color i = -1 :=
    fun i hi => resetColors_of_mem G s0 hi
  have h2 : find_max_degree_uncolored_vertex G (resetColors G.N s0) = some init := by
    rw [find_max_degree_eq_spec, firstMaxUncolored_eq_all G _ (vertexList G) hall, h1]
  exact find_max_degree_isFirstMax G _ init h2

/-! The driver run on an arbitrary legitimate sort output
(`generic_greedy_on` under `SortedByDeg`): entry invariant, main-loop
postcondition, and the maximum-degree property of the head. -/

theorem sortedByDeg_insertionSort (G : Graph) :
    SortedByDeg G (List.insertionSort (degGE G) (vertexList G)) :=
  ⟨sorted_perm G, List.sorted_insertionSort _ _⟩

theorem generic_on_insertionSort (alg : Alg) (G : Graph) (s0 : ColorState) :
    generic_greedy_coloring alg G s0 =
      generic_greedy_on alg G s0 (List.insertionSort (degGE G) (vertexList G)) := by
  cases hsort : List.insertionSort (degGE G) (vertexList G) with
  | nil =>
    simp only [generic_greedy_coloring, generic_greedy_on, hsort]
  | cons init restSorted =>
    simp only [generic_greedy_coloring, generic_greedy_on, hsort]

theorem entry_inv_of_perm (G : Graph) (s0 : ColorState) (init : Nat)
    (restSorted : List Nat) (hperm : (init :: restSorted).Perm (vertexList G)) :
    LoopInv G (setColor (resetColors G.N s0) init 0)
      ((init :: restSorted).filter (fun x => x != init)) [0] 1 := by
  have hinitV : init ∈ vertexList G := hperm.subset (List.mem_cons_self _ _)
  have hnd : (init :: restSorted).Nodup := hperm.nodup_iff.2 (vertexList_nodup G)
  have hmemV : ∀ i, i ∈ init :: restSorted ↔ i ∈ vertexList G := fun i => hperm.mem_iff
  refine ⟨?_, hnd.filter _, ?_, ?_, by decide, ?_, le_refl 1, ?_⟩
  · intro i hi
    exact (hmemV i).1 (mem_filter_ne.1 hi).1
  · intro i hi
    rw [setColor_color, Function.update_apply]
    by_cases hii : i = init
    · rw [if_pos hii]
      constructor
      · intro h
        exact absurd h (by decide)
      · intro hmem
        exact absurd hii (mem_filter_ne.1 hmem).2
    · rw [if_neg hii, resetColors_of_mem G s0 hi]
      simp only [mem_filter_ne]
      exact ⟨fun _ => ⟨(hmemV i).2 hi, hii⟩, fun _ => by trivial⟩
  · intro i hi
    rw [setColor_color, Function.update_apply]
    by_cases hii : i = init
    · rw [if_pos hii]
      refine Or.inr ⟨by decide, by decide⟩
    · rw [if_neg hii]
      exact Or.inl (resetColors_of_mem G s0 hi)
  · intro c h0 h1
    have hc0 : c = 0 := by
      have : ((1 : Nat) : Int) = 1 := by decide
      omega
    refine ⟨init, hinitV, ?_⟩
    rw [setColor_color, Function.update_same, hc0]
  · intro hwf hlf u huV v hv
    rw [setColor_color, Function.update_apply, Function.update_apply]
    by_cases hui : u = init
    · rw [if_pos hui]
      intro _
      have hvi : v ≠ init := by
        intro h
        have hvu : v = u := h.trans hui.symm
        rw [hvu] at hv
        exact hlf u huV hv
      rw [if_neg hvi]
      have hvV : v ∈ vertexList G := (hwf u huV v hv).1
      rw [resetColors_of_mem G s0 hvV]
      decide
    · rw [if_neg hui]
      rw [resetColors_of_mem G s0 huV]
      intro h
      exact absurd rfl h

theorem generic_on_main (alg : Alg) (G : Graph) (s0 : ColorState) (init : Nat)
    (restSorted : List Nat) (hperm : (init :: restSorted).Perm (vertexList G)) :
    LoopOut G (setColor (resetColors G.N s0) init 0)
      (generic_greedy_on alg G s0 (init :: restSorted))
      ((init :: restSorted).filter (fun x => x != init)) 1 [(init, 0)] := by
  have hinv := entry_inv_of_perm G s0 init restSorted hperm
  have hnd : (init :: restSorted).Nodup := hperm.nodup_iff.2 (vertexList_nodup G)
  have hfuel : ((init :: restSorted).filter (fun x => x != init)).length ≤ G.N := by
    have h1 := length_filter_ne hnd (List.mem_cons_self init restSorted)
    have h2 : (init :: restSorted).length = G.N := by
      rw [hperm.length_eq]
      simp [vertexList]
    omega
  have hred : generic_greedy_on alg G s0 (init :: restSorted) =
      greedyLoop alg G G.N (setColor (resetColors G.N s0) init 0)
        ((init :: restSorted).filter (fun x => x != init)) [0] 1 [(init, 0)] := rfl
  rw [hred]
  exact greedyLoop_master alg G G.N _ _ _ 1 _ hinv hfuel

theorem head_isMaxDeg (G : Graph) (s0 : ColorState) (init : Nat)
    (restSorted : List Nat) (hsd : SortedByDeg G (init :: restSorted)) :
    IsMaxDeg G (resetColors G.N s0) init := by
  obtain ⟨hperm, hsorted⟩ := hsd
  have hinitV : init ∈ vertexList G := hperm.subset (List.mem_cons_self _ _)
  refine ⟨hinitV, resetColors_of_mem G s0 hinitV, ?_⟩
  intro u huV _
  rcases List.mem_cons.1 (hperm.mem_iff.2 huV) with h | h
  · rw [h]
  · exact (List.sorted_cons.1 hsorted).1 u h

/-! State-independence simulation: both drivers' outputs depend only on the
graph, not on the incoming color or heuristic fields. -/

theorem computeHeuristic_congr (alg : Alg) (G : Graph) {s t : ColorState} (v : Nat)
    (h : ∀ x ∈ G.nbrs v, s.color x = t.color x) :
    computeHeuristic alg G s v = computeHeuristic alg G t v := by
  have hfil : (G.nbrs v).filter (fun nb => s.color nb != -1) =
      (G.nbrs v).filter (fun nb => t.color nb != -1) := by
    apply List.filter_congr
    intro a ha
    rw [h a ha]
  cases alg with
  | IDO =>
    simp only [computeHeuristic]
    rw [hfil]
  | DSATUR =>
    simp only [computeHeuristic]
    rw [hfil]
    have hmap : ((G.nbrs v).filter (fun nb => t.color nb != -1)).map s.color =
        ((G.nbrs v).filter (fun nb => t.color nb != -1)).map t.color := by
      apply List.map_congr_left
      intro a ha
      exact h a (List.mem_filter.1 ha).1
    rw [hmap]

theorem all_congr_mem {α : Type} (f g : α → Bool) :
    ∀ l : List α, (∀ a ∈ l, f a = g a) → l.all f = l.all g := by
  intro l
  induction l with
  | nil => intro _; rfl
  | cons a rest ih =>
    intro h
    simp only [List.all_cons, h a (List.mem_cons_self _ _),
      ih (fun b hb => h b (List.mem_cons_of_mem _ hb))]

theorem isColorValid_congr (G : Graph) {s t : ColorState} (v : Nat) (c : Int)
    (h : ∀ x ∈ G.nbrs v, s.color x = t.color x) :
    isColorValid G s v c = isColorValid G t v c := by
  unfold isColorValid
  apply all_congr_mem
  intro a ha
  rw [h a ha]

theorem firstFitColor_congr (G : Graph) {s t : ColorState} (v : Nat)
    (h : ∀ x ∈ G.nbrs v, s.color x = t.color x) :
    ∀ pal : List Int, firstFitColor G s v pal = firstFitColor G t v pal := by
  intro pal
  induction pal with
  | nil => rfl
  | cons c cs ih =>
    simp only [firstFitColor, isColorValid_congr G v c h, ih]

/-- The selection scan returns identical best vertices on states with equal
colors on 1..N, provided the current bests agree including their stored
heuristic values. -/
theorem scanLoop_sim (alg : Alg) (G : Graph) (hwf : WellFormed G) :
    ∀ (l : List Nat) (s t : ColorState) (best : Option Nat),
      (∀ i ∈ l, i ∈ vertexList G) →
      ColorEqOn G s t →
      (∀ b, best = some b → s.heur b = t.heur b) →
      (scanLoop alg G l s best).1 = (scanLoop alg G l t best).1 := by
  intro l
  induction l with
  | nil => intro s t best _ _ _; rfl
  | cons v rest ih =>
    intro s t best hl heq hb
    have hvV : v ∈ vertexList G := hl v (List.mem_cons_self _ _)
    have hnbr : ∀ x ∈ G.nbrs v, s.color x = t.color x := by
      intro x hx
      exact heq x (hwf v hvV x hx).1
    have hcomp : computeHeuristic alg G s v = computeHeuristic alg G t v :=
      computeHeuristic_congr alg G v hnbr
    simp only [scanLoop]
    have hs' : ∀ b, (setHeur s v (computeHeuristic alg G s v)).heur b =
        (setHeur t v (computeHeuristic alg G t v)).heur b ∨ best ≠ some b ∧ b ≠ v := by
      intro b
      by_cases hbv : b = v
      · subst hbv
        left
        simp [setHeur, Function.update_same, hcomp]
      · by_cases hbb : best = some b
        · left
          simp only [setHeur, Function.update_noteq hbv]
          exact hb b hbb
        · right
          exact ⟨hbb, hbv⟩
    have hpick : pickBest G (setHeur s v (computeHeuristic alg G s v)) v best =
        pickBest G (setHeur t v (computeHeuristic alg G t v)) v best := by
      rcases best with _ | b
      · rfl
      · simp only [pickBest]
        have h1 : (setHeur s v (computeHeuristic alg G s v)).heur v =
            (setHeur t v (computeHeuristic alg G t v)).heur v := by
          simp [setHeur, Function.update_same, hcomp]
        have h2 : (setHeur s v (computeHeuristic alg G s v)).heur b =
            (setHeur t v (computeHeuristic alg G t v)).heur b := by
          rcases hs' b with h | ⟨hc, _⟩
          · exact h
          · exact absurd rfl hc
        rw [h1, h2]
    rw [hpick]
    have heqp : ColorEqOn G (setHeur s v (computeHeuristic alg G s v))
        (setHeur t v (computeHeuristic alg G t v)) := by
      intro i hi
      exact heq i hi
    apply ih _ _ _ (fun i hi => hl i (List.mem_cons_of_mem _ hi)) heqp
    intro b hbp
    rcases pickBest_cases G (setHeur t v (computeHeuristic alg G t v)) v best with hp | hp
    · rw [hbp] at hp
      have hbv : b = v := by
        injection hp.symm with h'
        exact h'.symm
      subst hbv
      simp [setHeur, Function.update_same, hcomp]
    · rw [hbp] at hp
      have hbb : best = some b := hp.symm
      by_cases hbv : b = v
      · subst hbv
        simp [setHeur, Function.update_same, hcomp]
      · simp only [setHeur, Function.update_noteq hbv]
        exact hb b hbb

/-- The main loop produces identical outputs (and colors on 1..N) from states
with equal colors on 1..N. -/
theorem greedyLoop_sim (alg : Alg) (G : Graph) (hwf : WellFormed G) :
    ∀ (fuel : Nat) (s t : ColorState) (uncolored : List Nat) (palette : List Int)
      (next : Nat) (trace : List (Nat × Int)),
      (∀ i ∈ uncolored, i ∈ vertexList G) →
      ColorEqOn G s t →
      (greedyLoop alg G fuel s uncolored palette next trace).count =
        (greedyLoop alg G fuel t uncolored palette next trace).count ∧
      (greedyLoop alg G fuel s uncolored palette next trace).palette =
        (greedyLoop alg G fuel t uncolored palette next trace).palette ∧
      (greedyLoop alg G fuel s uncolored palette next trace).trace =
        (greedyLoop alg G fuel t uncolored palette next trace).trace ∧
      (greedyLoop alg G fuel s uncolored palette next trace).warned =
        (greedyLoop alg G fuel t uncolored palette next trace).warned ∧
      ColorEqOn G (greedyLoop alg G fuel s uncolored palette next trace).state
        (greedyLoop alg G fuel t uncolored palette next trace).state := by
  intro fuel
  induction fuel with
  | zero =>
    intro s t uncolored palette next trace _ heq
    exact ⟨rfl, rfl, rfl, rfl, heq⟩
  | succ fuel ih =>
    intro s t uncolored palette next trace hl heq
    by_cases hemp : uncolored = []
    · subst hemp
      simp only [greedyLoop, List.isEmpty_nil]
      exact ⟨rfl, rfl, rfl, rfl, heq⟩
    · have hlist : uncolored.isEmpty = false := by
        cases uncolored with
        | nil => exact absurd rfl hemp
        | cons a l => rfl
      have hbests := scanLoop_sim alg G hwf uncolored s t none hl heq
        (fun b hb => Option.noConfusion hb)
      rcases hscans : scanLoop alg G uncolored s none with ⟨bos, s'⟩
      rcases hscant : scanLoop alg G uncolored t none with ⟨bot, t'⟩
      rw [hscans, hscant] at hbests
      simp only at hbests
      subst hbests
      have hs'col : s'.color = s.color := by
        have h := scanLoop_color alg G uncolored s none
        rw [hscans] at h
        exact h
      have ht'col : t'.color = t.color := by
        have h := scanLoop_color alg G uncolored t none
        rw [hscant] at h
        exact h
      have heq' : ColorEqOn G s' t' := by
        intro i hi
        rw [hs'col, ht'col]
        exact heq i hi
      rcases bos with _ | b
      · simp only [greedyLoop, hlist, Bool.false_eq_true, if_false, hscans, hscant]
        exact ⟨by trivial, by trivial, by trivial, by trivial, heq'⟩
      · have hbV : b ∈ vertexList G := by
          rcases scanLoop_mem alg G uncolored s none b (by rw [hscans]) with h | h
          · exact hl b h
          · exact Option.noConfusion h
        have hnbr : ∀ x ∈ G.nbrs b, s'.color x = t'.color x := by
          intro x hx
          rw [hs'col, ht'col]
          exact heq x (hwf b hbV x hx).1
        have hff : firstFitColor G s' b palette = firstFitColor G t' b palette :=
          firstFitColor_congr G b hnbr palette
        have hsub' : ∀ i ∈ uncolored.filter (fun x => x != b), i ∈ vertexList G :=
          fun i hi => hl i (mem_filter_ne.1 hi).1
        cases hffs : firstFitColor G s' b palette with
        | some c =>
          have hfft : firstFitColor G t' b palette = some c := by
            rw [← hff, hffs]
          have heq'' : ColorEqOn G (setColor s' b c) (setColor t' b c) := by
            intro i hi
            rw [setColor_color, setColor_color, Function.update_apply,
              Function.update_apply]
            by_cases hib : i = b
            · rw [if_pos hib, if_pos hib]
            · rw [if_neg hib, if_neg hib, hs'col, ht'col]
              exact heq i hi
          have hrec := ih (setColor s' b c) (setColor t' b c)
            (uncolored.filter (fun x => x != b)) palette next (trace ++ [(b, c)])
            hsub' heq''
          have hreds : greedyLoop alg G (fuel + 1) s uncolored palette next trace =
              greedyLoop alg G fuel (setColor s' b c)
                (uncolored.filter (fun x => x != b)) palette next (trace ++ [(b, c)]) := by
            simp only [greedyLoop, hlist, Bool.false_eq_true, if_false, hscans, hffs]
          have hredt : greedyLoop alg G (fuel + 1) t uncolored palette next trace =
              greedyLoop alg G fuel (setColor t' b c)
                (uncolored.filter (fun x => x != b)) palette next (trace ++ [(b, c)]) := by
            simp only [greedyLoop, hlist, Bool.false_eq_true, if_false, hscant, hfft]
          rw [hreds, hredt]
          exact hrec
        | none =>
          have hfft : firstFitColor G t' b palette = none := by
            rw [← hff, hffs]
          have heq'' : ColorEqOn G (setColor s' b (next : Int))
              (setColor t' b (next : Int)) := by
            intro i hi
            rw [setColor_color, setColor_color, Function.update_apply,
              Function.update_apply]
            by_cases hib : i = b
            · rw [if_pos hib, if_pos hib]
            · rw [if_neg hib, if_neg hib, hs'col, ht'col]
              exact heq i hi
          have hrec := ih (setColor s' b (next : Int)) (setColor t' b (next : Int))
            (uncolored.filter (fun x => x != b)) (palette ++ [(next : Int)]) (next + 1)
            (trace ++ [(b, (next : Int))]) hsub' heq''
          have hreds : greedyLoop alg G (fuel + 1) s uncolored palette next trace =
              greedyLoop alg G fuel (setColor s' b (next : Int))
                (uncolored.filter (fun x => x != b)) (palette ++ [(next : Int)])
                (next + 1) (trace ++ [(b, (next : Int))]) := by
            simp only [greedyLoop, hlist, Bool.false_eq_true, if_false, hscans, hffs]
          have hredt : greedyLoop alg G (fuel + 1) t uncolored palette next trace =
              greedyLoop alg G fuel (setColor t' b (next : Int))
                (uncolored.filter (fun x => x != b)) (palette ++ [(next : Int)])
                (next + 1) (trace ++ [(b, (next : Int))]) := by
            simp only [greedyLoop, hlist, Bool.false_eq_true, if_false, hscant, hfft]
          rw [hreds, hredt]
          exact hrec

/-- The generic driver's outputs depend only on the graph: count, palette,
trace, warning flag and the final colors of 1..N are the same from any two
initial states. -/
theorem generic_sim (alg : Alg) (G : Graph) (hwf : WellFormed G)
    (s0 t0 : ColorState) :
    (generic_greedy_coloring alg G s0).count = (generic_greedy_coloring alg G t0).count ∧
    (generic_greedy_coloring alg G s0).palette = (generic_greedy_coloring alg G t0).palette ∧
    (generic_greedy_coloring alg G s0).trace = (generic_greedy_coloring alg G t0).trace ∧
    (generic_greedy_coloring alg G s0).warned = (generic_greedy_coloring alg G t0).warned ∧
    colorList G (generic_greedy_coloring alg G s0).state =
      colorList G (generic_greedy_coloring alg G t0).state := by
  have heq0 : ColorEqOn G (resetColors G.N s0) (resetColors G.N t0) := by
    intro i hi
    rw [resetColors_of_mem G s0 hi, resetColors_of_mem G t0 hi]
  cases hsort : List.insertionSort (degGE G) (vertexList G) with
  | nil =>
    simp only [generic_greedy_coloring, hsort]
    refine ⟨by trivial, by trivial, by trivial, by trivial, ?_⟩
    unfold colorList
    apply List.map_congr_left
    intro i hi
    exact heq0 i hi
  | cons init restSorted =>
    have hinitV : init ∈ vertexList G := by
      rw [← mem_sorted G, hsort]
      exact List.mem_cons_self _ _
    have heq1 : ColorEqOn G (setColor (resetColors G.N s0) init 0)
        (setColor (resetColors G.N t0) init 0) := by
      intro i hi
      rw [setColor_color, setColor_color, Function.update_apply, Function.update_apply]
      by_cases hib : i = init
      · rw [if_pos hib, if_pos hib]
      · rw [if_neg hib, if_neg hib]
        exact heq0 i hi
    have hsub : ∀ i ∈ (init :: restSorted).filter (fun x => x != init),
        i ∈ vertexList G := by
      intro i hi
      rw [← mem_sorted G, hsort]
      exact (mem_filter_ne.1 hi).1
    have hrec := greedyLoop_sim alg G hwf G.N (setColor (resetColors G.N s0) init 0)
      (setColor (resetColors G.N t0) init 0)
      ((init :: restSorted).filter (fun x => x != init)) [0] 1 [(init, 0)] hsub heq1
    have hreds : generic_greedy_coloring alg G s0 =
        greedyLoop alg G G.N (setColor (resetColors G.N s0) init 0)
          ((init :: restSorted).filter (fun x => x != init)) [0] 1 [(init, 0)] := by
      simp only [generic_greedy_coloring, hsort]
    have hredt : generic_greedy_coloring alg G t0 =
        greedyLoop alg G G.N (setColor (resetColors G.N t0) init 0)
          ((init :: restSorted).filter (fun x => x != init)) [0] 1 [(init, 0)] := by
      simp only [generic_greedy_coloring, hsort]
    rw [hreds, hredt]
    obtain ⟨h1, h2, h3, h4, h5⟩ := hrec
    refine ⟨h1, h2, h3, h4, ?_⟩
    unfold colorList
    apply List.map_congr_left
    intro i hi
    exact h5 i hi

theorem firstMaxUncolored_congr (G : Graph) {s t : ColorState} :
    ∀ l : List Nat, (∀ i ∈ l, s.color i = t.color i) →
      firstMaxUncolored G s l = firstMaxUncolored G t l := by
  intro l
  induction l with
  | nil => intro _; rfl
  | cons i rest ih =>
    intro h
    have hc : s.color i = t.color i := h i (List.mem_cons_self _ _)
    have hrest := ih (fun j hj => h j (List.mem_cons_of_mem _ hj))
    simp only [firstMaxUncolored, hc, hrest]

theorem find_max_degree_congr (G : Graph) {s t : ColorState} (h : ColorEqOn G s t) :
    find_max_degree_uncolored_vertex G s = find_max_degree_uncolored_vertex G t := by
  rw [find_max_degree_eq_spec, find_max_degree_eq_spec]
  exact firstMaxUncolored_congr G (vertexList G) h

theorem rlfScan_sim (G : Graph) (forb : Nat → Bool) :
    ∀ (l : List Nat) (s t : ColorState) (cand : Option (Nat × Int)),
      (∀ i ∈ l, s.color i = t.color i) →
      (rlfScan G forb l s cand).1 = (rlfScan G forb l t cand).1 := by
  intro l
  induction l with
  | nil => intro s t cand _; rfl
  | cons k rest ih =>
    intro s t cand h
    have hck : s.color k = t.color k := h k (List.mem_cons_self _ _)
    have hrest : ∀ i ∈ rest, s.color i = t.color i :=
      fun i hi => h i (List.mem_cons_of_mem _ hi)
    simp only [rlfScan]
    by_cases hk : s.color k = -1 ∧ forb k = false
    · have hk' : t.color k = -1 ∧ forb k = false := by
        rw [← hck]
        exact hk
      rw [if_pos hk, if_pos hk']
      have hpick : pickCand G
          (setHeur s k (((G.nbrs k).filter (fun nb => forb nb)).length)) k cand =
          pickCand G
          (setHeur t k (((G.nbrs k).filter (fun nb => forb nb)).length)) k cand := by
        rcases cand with _ | ⟨b, maxAdj⟩ <;>
          simp [pickCand, setHeur, Function.update_same]
      rw [hpick]
      exact ih _ _ _ (fun i hi => hrest i hi)
    · have hk' : ¬(t.color k = -1 ∧ forb k = false) := by
        rw [← hck]
        exact hk
      rw [if_neg hk, if_neg hk']
      exact ih _ _ _ hrest

theorem rlfInner_sim (G : Graph) :
    ∀ (fuel : Nat) (s t : ColorState) (forb : Nat → Bool) (curColor : Int)
      (total : Nat) (trace : List (Nat × Int)),
      ColorEqOn G s t →
      (rlfInner G fuel s forb curColor total trace).2.1 =
        (rlfInner G fuel t forb curColor total trace).2.1 ∧
      (rlfInner G fuel s forb curColor total trace).2.2.1 =
        (rlfInner G fuel t forb curColor total trace).2.2.1 ∧
      (rlfInner G fuel s forb curColor total trace).2.2.2 =
        (rlfInner G fuel t forb curColor total trace).2.2.2 ∧
      ColorEqOn G (rlfInner G fuel s forb curColor total trace).1
        (rlfInner G fuel t forb curColor total trace).1 := by
  intro fuel
  induction fuel with
  | zero =>
    intro s t forb curColor total trace heq
    exact ⟨rfl, rfl, rfl, heq⟩
  | succ fuel ih =>
    intro s t forb curColor total trace heq
    have hcand := rlfScan_sim G forb (vertexList G) s t none heq
    rcases hscans : rlfScan G forb (vertexList G) s none with ⟨cands, s'⟩
    rcases hscant : rlfScan G forb (vertexList G) t none with ⟨candt, t'⟩
    rw [hscans, hscant] at hcand
    simp only at hcand
    subst hcand
    have hs'col : s'.color = s.color := by
      have h := rlfScan_color G forb (vertexList G) s none
      rw [hscans] at h
      exact h
    have ht'col : t'.color = t.color := by
      have h := rlfScan_color G forb (vertexList G) t none
      rw [hscant] at h
      exact h
    have heq' : ColorEqOn G s' t' := by
      intro i hi
      rw [hs'col, ht'col]
      exact heq i hi
    rcases cands with _ | ⟨k, hk⟩
    · simp only [rlfInner, hscans, hscant]
      exact ⟨by trivial, by trivial, by trivial, heq'⟩
    · have heq'' : ColorEqOn G (setColor s' k curColor) (setColor t' k curColor) := by
        intro i hi
        rw [setColor_color, setColor_color, Function.update_apply, Function.update_apply]
        by_cases hib : i = k
        · rw [if_pos hib, if_pos hib]
        · rw [if_neg hib, if_neg hib]
          exact heq' i hi
      have hrec := ih (setColor s' k curColor) (setColor t' k curColor)
        (addForbidden forb (G.nbrs k)) curColor (total + 1)
        (trace ++ [(k, curColor)]) heq''
      simp only [rlfInner, hscans, hscant]
      exact hrec

theorem rlfOuter_sim (G : Graph) :
    ∀ (fuel : Nat) (s t : ColorState) (curColor total : Nat) (trace : List (Nat × Int)),
      ColorEqOn G s t →
      (rlfOuter G fuel s curColor total trace).count =
        (rlfOuter G fuel t curColor total trace).count ∧
      (rlfOuter G fuel s curColor total trace).trace =
        (rlfOuter G fuel t curColor total trace).trace ∧
      (rlfOuter G fuel s curColor total trace).warned =
        (rlfOuter G fuel t curColor total trace).warned ∧
      ColorEqOn G (rlfOuter G fuel s curColor total trace).state
        (rlfOuter G fuel t curColor total trace).state := by
  intro fuel
  induction fuel with
  | zero =>
    intro s t curColor total trace heq
    exact ⟨rfl, rfl, rfl, heq⟩
  | succ fuel ih =>
    intro s t curColor total trace heq
    by_cases htot : total < G.N
    · have hfind := find_max_degree_congr G heq
      rcases hfinds : find_max_degree_uncolored_vertex G s with _ | vi
      · rw [hfinds] at hfind
        simp only [rlfOuter, if_pos htot, hfinds, ← hfind]
        exact ⟨by trivial, by trivial, by trivial, heq⟩
      · rw [hfinds] at hfind
        have heq1 : ColorEqOn G (setColor s vi (curColor : Int))
            (setColor t vi (curColor : Int)) := by
          intro i hi
          rw [setColor_color, setColor_color, Function.update_apply,
            Function.update_apply]
          by_cases hib : i = vi
          · rw [if_pos hib, if_pos hib]
          · rw [if_neg hib, if_neg hib]
            exact heq i hi
        obtain ⟨hforb2, htotal2, htrace2, hstate2⟩ :=
          rlfInner_sim G (G.N + 1) (setColor s vi (curColor : Int))
            (setColor t vi (curColor : Int))
            (addForbidden (fun _ => false) (G.nbrs vi)) (curColor : Int)
            (total + 1) (trace ++ [(vi, (curColor : Int))]) heq1
        rcases hins : rlfInner G (G.N + 1) (setColor s vi (curColor : Int))
            (addForbidden (fun _ => false) (G.nbrs vi)) (curColor : Int)
            (total + 1) (trace ++ [(vi, (curColor : Int))]) with ⟨s2, forb2, total2, trace2⟩
        rcases hint : rlfInner G (G.N + 1) (setColor t vi (curColor : Int))
            (addForbidden (fun _ => false) (G.nbrs vi)) (curColor : Int)
            (total + 1) (trace ++ [(vi, (curColor : Int))]) with ⟨t2, forb2', total2', trace2'⟩
        rw [hins, hint] at hforb2 htotal2 htrace2 hstate2
        simp only at hforb2 htotal2 htrace2 hstate2
        subst htotal2
        subst htrace2
        have hrec := ih s2 t2 (curColor + 1) total2 trace2 hstate2
        simp only [rlfOuter, if_pos htot, hfinds, ← hfind, hins, hint]
        exact hrec
    · simp only [rlfOuter, if_neg htot]
      exact ⟨by trivial, by trivial, by trivial, heq⟩

/-- The RLF driver's outputs depend only on the graph. -/
theorem RLF_sim (G : Graph) (s0 t0 : ColorState) :
    (RLF_coloring G s0).count = (RLF_coloring G t0).count ∧
    (RLF_coloring G s0).trace = (RLF_coloring G t0).trace ∧
    (RLF_coloring G s0).warned = (RLF_coloring G t0).warned ∧
    colorList G (RLF_coloring G s0).state = colorList G (RLF_coloring G t0).state := by
  have heq0 : ColorEqOn G (resetColors G.N s0) (resetColors G.N t0) := by
    intro i hi
    rw [resetColors_of_mem G s0 hi, resetColors_of_mem G t0 hi]
  obtain ⟨h1, h2, h3, h4⟩ :=
    rlfOuter_sim G G.N (resetColors G.N s0) (resetColors G.N t0) 0 0 [] heq0
  refine ⟨h1, h2, h3, ?_⟩
  unfold colorList
  apply List.map_congr_left
  intro i hi
  exact h4 i hi

/-! # Claim theorems -/

/-- C1, counterexample: the claim as stated is false.  The graph with one
vertex and the self-loop edge `e 1 1` has symmetric adjacency and valid 1..N
indices (the loader accepts it), yet after `IDO_coloring` completes, the edge
(1,1) has equal colors at both endpoints, so the coloring is not valid. -/
theorem C1_claim_counterexample :
    WellFormed Gloop ∧ ¬ValidColoring Gloop (IDO_coloring Gloop initState).state :=
  ⟨by decide, by decide⟩

/-- C1 (amended: well-formedness must additionally exclude self-loops).  For
every well-formed loop-free graph and every driver (`IDO_coloring` and
`DSATUR_coloring` via `generic_greedy_coloring`, and `RLF_coloring`), after
the driver completes the colors of the two endpoints of every edge differ and
every vertex is colored; the empty graph is covered vacuously. -/
theorem C1_validity (G : Graph) (hwf : WellFormed G) (hlf : LoopFree G)
    (s0 : ColorState) :
    (∀ alg : Alg, ValidColoring G (generic_greedy_coloring alg G s0).state ∧
      AllColored G (generic_greedy_coloring alg G s0).state) ∧
    ValidColoring G (RLF_coloring G s0).state ∧
    AllColored G (RLF_coloring G s0).state := by
  constructor
  · intro alg
    by_cases hN : G.N = 0
    · have hv : vertexList G = [] := by
        simp [vertexList, hN]
      constructor
      · intro u hu
        rw [hv] at hu
        exact absurd hu (List.not_mem_nil u)
      · intro u hu
        rw [hv] at hu
        exact absurd hu (List.not_mem_nil u)
    · obtain ⟨init, restSorted, hsort, hinitV, hout⟩ := generic_main alg G s0 hN
      exact ⟨hout.valid hwf hlf, hout.colored⟩
  · have hout := RLF_main G s0
    exact ⟨hout.valid hwf hlf, hout.colored⟩

/-- C1 witness: the amended theorem applied to the triangle. -/
theorem C1_validity_witness :
    WellFormed Gtriangle ∧ LoopFree Gtriangle ∧
    ValidColoring Gtriangle (IDO_coloring Gtriangle initState).state ∧
    AllColored Gtriangle (RLF_coloring Gtriangle initState).state :=
  ⟨by decide, by decide,
    ((C1_validity Gtriangle (by decide) (by decide) initState).1 Alg.IDO).1,
    (C1_validity Gtriangle (by decide) (by decide) initState).2.2⟩

/-- C2: every driver invocation terminates with every vertex colored, and the
trace — one entry per loop iteration that colors a vertex — has exactly one
entry per vertex: the generic loop removes exactly one newly colored vertex
per iteration until the uncolored list is empty, and RLF colors at least the
seed per outer iteration until the colored count reaches the vertex count. -/
theorem C2_termination (G : Graph) (s0 : ColorState) :
    (∀ alg : Alg, AllColored G (generic_greedy_coloring alg G s0).state ∧
      (generic_greedy_coloring alg G s0).trace.length = G.N) ∧
    AllColored G (RLF_coloring G s0).state ∧
    (RLF_coloring G s0).trace.length = G.N := by
  constructor
  · intro alg
    by_cases hN : G.N = 0
    · rw [generic_empty alg G s0 hN]
      constructor
      · intro u hu
        simp [vertexList, hN] at hu
      · simp [hN]
    · obtain ⟨init, restSorted, hsort, hinitV, hout⟩ := generic_main alg G s0 hN
      refine ⟨hout.colored, ?_⟩
      rw [hout.traceLen]
      have hnd : (init :: restSorted).Nodup := by
        rw [← hsort]
        exact sorted_nodup G
      have h1 := length_filter_ne hnd (List.mem_cons_self init restSorted)
      have h2 : (init :: restSorted).length = G.N := by
        rw [← hsort]
        exact sorted_length G
      simp only [List.length_cons, List.length_nil]
      omega
  · have hout := RLF_main G s0
    exact ⟨hout.colored, hout.traceLen⟩

/-- C9: the internal-consistency warning branches are unreachable: in the
generic driver the selection scan always finds a best vertex while the
uncolored list is non-empty, and in RLF `find_max_degree_uncolored_vertex`
always returns a vertex while fewer than `num_vertices` vertices are colored,
so neither driver ever takes its warning-and-break branch. -/
theorem C9_no_warning (G : Graph) (s0 : ColorState) :
    (∀ alg : Alg, (generic_greedy_coloring alg G s0).warned = false) ∧
    (RLF_coloring G s0).warned = false := by
  constructor
  · intro alg
    by_cases hN : G.N = 0
    · rw [generic_empty alg G s0 hN]
    · obtain ⟨init, restSorted, hsort, hinitV, hout⟩ := generic_main alg G s0 hN
      exact hout.warned
  · exact (RLF_main G s0).warned

/-- C3: in the generic greedy driver (IDO and DSATUR), every assignment is
first-fit: for every decomposition of the run's trace around an entry (v, c),
replaying the preceding assignments on the reset state shows that v was still
uncolored (no already-colored vertex is ever recolored) and that c is the
lowest-indexed color — in the palette's creation order 0, 1, 2, … — that is
feasible for v at that moment; when no existing palette color is feasible
this lowest feasible color is the brand-new index appended to the palette. -/
theorem C3_first_fit (alg : Alg) (G : Graph) (hwf : WellFormed G) (s0 : ColorState)
    (t1 : List (Nat × Int)) (v : Nat) (c : Int) (t2 : List (Nat × Int))
    (hdec : (generic_greedy_coloring alg G s0).trace = t1 ++ (v, c) :: t2) :
    (applyColors (resetColors G.N s0).color t1) v = -1 ∧
    validColor G (applyColors (resetColors G.N s0).color t1) v c = true ∧
    ∀ c' : Int, 0 ≤ c' → c' < c →
      validColor G (applyColors (resetColors G.N s0).color t1) v c' = false := by
  by_cases hN : G.N = 0
  · exfalso
    rw [generic_empty alg G s0 hN] at hdec
    have hlen := congrArg List.length hdec
    simp only [List.length_append, List.length_cons, List.length_nil] at hlen
    omega
  · obtain ⟨init, restSorted, hsort, hinitV, hout⟩ := generic_main alg G s0 hN
    obtain ⟨tl, htl⟩ := hout.traceExt
    rw [List.singleton_append] at htl
    cases t1 with
    | nil =>
      rw [htl, List.nil_append] at hdec
      injection hdec with h1 h2
      injection h1 with hv hc
      subst hv
      subst hc
      rw [applyColors_nil]
      refine ⟨resetColors_of_mem G s0 hinitV, ?_, ?_⟩
      · unfold validColor
        rw [List.all_eq_true]
        intro nb hnb
        have hnbV : nb ∈ vertexList G := (hwf init hinitV nb hnb).1
        simp [resetColors_of_mem G s0 hnbV]
      · intro c' h0 hlt
        exfalso
        omega
    | cons p t1' =>
      rw [htl, List.cons_append] at hdec
      injection hdec with h1 h2
      have hdec' : (generic_greedy_coloring alg G s0).trace =
          [(init, 0)] ++ t1' ++ (v, c) :: t2 := by
        rw [htl, h2, List.singleton_append, List.cons_append]
      have hres := hout.firstFit hwf t1' v c t2 hdec'
      rw [setColor_color] at hres
      rw [← h1, applyColors_cons]
      exact hres

/-- C3 witness: the first-fit property applied to the second assignment of an
IDO run on the path 1-2-3 (trace `[(2,0), (1,1), (3,1)]`). -/
theorem C3_first_fit_witness :
    WellFormed Gpath3 ∧
    (IDO_coloring Gpath3 initState).trace = [(2, 0)] ++ (1, (1 : Int)) :: [(3, 1)] ∧
    (applyColors (resetColors Gpath3.N initState).color [(2, 0)]) 1 = -1 ∧
    validColor Gpath3 (applyColors (resetColors Gpath3.N initState).color [(2, 0)]) 1 1 = true ∧
    validColor Gpath3 (applyColors (resetColors Gpath3.N initState).color [(2, 0)]) 1 0 = false :=
  ⟨by decide, by decide,
    (C3_first_fit Alg.IDO Gpath3 (by decide) initState [(2, 0)] 1 1 [(3, 1)] (by decide)).1,
    (C3_first_fit Alg.IDO Gpath3 (by decide) initState [(2, 0)] 1 1 [(3, 1)] (by decide)).2.1,
    (C3_first_fit Alg.IDO Gpath3 (by decide) initState [(2, 0)] 1 1 [(3, 1)] (by decide)).2.2
      0 (by decide) (by decide)⟩

/-- C4: in the DSATUR selection scan, the heuristic value computed and stored
for each scanned (uncolored-list) vertex equals the number of *distinct*
colors among its currently colored neighbors — the size of the set of
neighbor colors, not the raw count of colored neighbors. -/
theorem C4_dsatur_saturation (G : Graph) (s : ColorState) (l : List Nat)
    (best : Option Nat) (v : Nat) (hv : v ∈ l) :
    ((scanLoop Alg.DSATUR G l s best).2).heur v =
      ((((G.nbrs v).filter (fun nb => s.color nb != -1)).map s.color).toFinset.card : Int) := by
  rw [scanLoop_heur_mem Alg.DSATUR G l s best v hv]
  simp only [computeHeuristic]
  rw [List.card_toFinset]

/-- C4 witness: a vertex whose three colored neighbors all share color 0 gets
saturation 1, not 3. -/
theorem C4_dsatur_saturation_witness :
    4 ∈ [4] ∧
    ((scanLoop Alg.DSATUR GsatTest [4] satState none).2).heur 4 =
      ((((GsatTest.nbrs 4).filter (fun nb => satState.color nb != -1)).map
        satState.color).toFinset.card : Int) ∧
    ((((GsatTest.nbrs 4).filter (fun nb => satState.color nb != -1)).map
        satState.color).toFinset.card : Int) = 1 ∧
    ((GsatTest.nbrs 4).filter (fun nb => satState.color nb != -1)).length = 3 :=
  ⟨by decide, C4_dsatur_saturation GsatTest satState [4] none 4 (by decide),
    by decide, by decide⟩

/-- C5, counterexample: the claim as stated ("exactly 1 color iff the graph
has no edges", for every graph) is false on the loader-accepted one-vertex
graph with the self-loop edge `e 1 1`: `IDO_coloring` returns exactly 1 color
although the graph has an edge. -/
theorem C5_claim_counterexample :
    WellFormed Gloop ∧ (IDO_coloring Gloop initState).count = 1 ∧ ¬EdgeFree Gloop :=
  ⟨by decide, by decide, by decide⟩

/-- C5 (amended: restricted to well-formed loop-free graphs, with the
"exactly 1 iff no edges" clause scoped to non-empty graphs): every driver
returns 0 colors exactly for the 0-vertex graph, at least 1 color for any
non-empty graph, and — on non-empty graphs — exactly 1 color iff the graph
has no edges. -/
theorem C5_color_counts (G : Graph) (hwf : WellFormed G) (hlf : LoopFree G)
    (s0 : ColorState) :
    (∀ alg : Alg,
      ((generic_greedy_coloring alg G s0).count = 0 ↔ G.N = 0) ∧
      (G.N ≠ 0 → 1 ≤ (generic_greedy_coloring alg G s0).count) ∧
      (G.N ≠ 0 → ((generic_greedy_coloring alg G s0).count = 1 ↔ EdgeFree G))) ∧
    ((RLF_coloring G s0).count = 0 ↔ G.N = 0) ∧
    (G.N ≠ 0 → 1 ≤ (RLF_coloring G s0).count) ∧
    (G.N ≠ 0 → ((RLF_coloring G s0).count = 1 ↔ EdgeFree G)) := by
  constructor
  · intro alg
    by_cases hN : G.N = 0
    · rw [generic_empty alg G s0 hN]
      refine ⟨by simp [hN], fun h => absurd hN h, fun h => absurd hN h⟩
    · obtain ⟨init, restSorted, hsort, hinitV, hout⟩ := generic_main alg G s0 hN
      have hmono := hout.mono
      refine ⟨⟨fun h => by omega, fun h => absurd h hN⟩, fun _ => hmono, fun _ => ?_⟩
      constructor
      · intro h1
        by_contra hedge
        have h2 := two_le_of_edge G (generic_greedy_coloring alg G s0).state
          (generic_greedy_coloring alg G s0).count hwf hout.bound
          (hout.valid hwf hlf) hedge
        omega
      · intro hef
        exact hout.edgefree hef
  · have hout := RLF_main G s0
    by_cases hN : G.N = 0
    · rw [RLF_empty G s0 hN]
      refine ⟨by simp [hN], fun h => absurd hN h, fun h => absurd hN h⟩
    · have h1V : 1 ∈ vertexList G := by
        rw [mem_vertexList]
        omega
      have hge1 : 1 ≤ (RLF_coloring G s0).count := by
        obtain ⟨h0, hlt⟩ := hout.bound 1 h1V
        by_contra h
        push_neg at h
        interval_cases (RLF_coloring G s0).count
        omega
      refine ⟨⟨fun h => by omega, fun h => absurd h hN⟩, fun _ => hge1, fun _ => ?_⟩
      constructor
      · intro h1
        by_contra hedge
        have h2 := two_le_of_edge G (RLF_coloring G s0).state
          (RLF_coloring G s0).count hwf hout.bound (hout.valid hwf hlf) hedge
        omega
      · intro hef
        exact hout.edgefree hef (by omega)

/-- C5 witness: the amended theorem applied to the triangle (non-empty,
with edges). -/
theorem C5_color_counts_witness :
    WellFormed Gtriangle ∧ LoopFree Gtriangle ∧ Gtriangle.N ≠ 0 ∧
    1 ≤ (IDO_coloring Gtriangle initState).count ∧
    1 ≤ (RLF_coloring Gtriangle initState).count :=
  ⟨by decide, by decide, by decide,
    ((C5_color_counts Gtriangle (by decide) (by decide) initState).1 Alg.IDO).2.1 (by decide),
    (C5_color_counts Gtriangle (by decide) (by decide) initState).2.2.1 (by decide)⟩

/-- C6: in every driver run, the colors assigned to vertices form exactly the
set {0, …, k−1} where k is the returned color count; for the generic driver
the palette is exactly the list [0, …, k−1] in creation order and the
reported "colors used" equals the palette size; for RLF the returned
`current_color` bounds the assigned colors exactly the same way, so it equals
the number of color classes created. -/
theorem C6_palette_range (G : Graph) (s0 : ColorState) :
    (∀ alg : Alg,
      (∀ c : Int, (∃ i ∈ vertexList G,
          (generic_greedy_coloring alg G s0).state.color i = c) ↔
        (0 ≤ c ∧ c < ((generic_greedy_coloring alg G s0).count : Int))) ∧
      (generic_greedy_coloring alg G s0).palette =
        (List.range' 0 (generic_greedy_coloring alg G s0).count).map
          (fun n : Nat => (n : Int)) ∧
      (generic_greedy_coloring alg G s0).count =
        (generic_greedy_coloring alg G s0).palette.length) ∧
    (∀ c : Int, (∃ i ∈ vertexList G, (RLF_coloring G s0).state.color i = c) ↔
      (0 ≤ c ∧ c < ((RLF_coloring G s0).count : Int))) := by
  constructor
  · intro alg
    by_cases hN : G.N = 0
    · rw [generic_empty alg G s0 hN]
      have hv : vertexList G = [] := by
        simp [vertexList, hN]
      refine ⟨?_, rfl, rfl⟩
      intro c
      rw [hv]
      simp
    · obtain ⟨init, restSorted, hsort, hinitV, hout⟩ := generic_main alg G s0 hN
      refine ⟨?_, hout.pal, ?_⟩
      · intro c
        constructor
        · rintro ⟨i, hi, hci⟩
          rw [← hci]
          exact hout.bound i hi
        · intro ⟨h0, h1⟩
          exact hout.used c h0 h1
      · rw [hout.pal]
        simp
  · have hout := RLF_main G s0
    intro c
    constructor
    · rintro ⟨i, hi, hci⟩
      rw [← hci]
      exact hout.bound i hi
    · intro ⟨h0, h1⟩
      exact hout.used c h0 h1

/-- C7 counterexample: on the 4-cycle every vertex has degree 2, and
`[2, 1, 3, 4]` is a legitimate output of the `std::sort` call (a
degree-descending-sorted permutation of the vertex list 1..4 — `std::sort`
leaves the relative order of tied degrees unspecified, so it may produce
this list); the driver run continuing from it colors vertex 2 first, and
vertex 2 is not the first-encountered maximum-degree vertex (vertex 1 is),
refuting the encounter-order tie-break the claim asserts for IDO/DSATUR. -/
theorem C7_claim_counterexample :
    SortedByDeg Gcycle4 [2, 1, 3, 4] ∧
    (generic_greedy_on Alg.IDO Gcycle4 initState [2, 1, 3, 4]).trace =
      (2, 0) :: [(1, 1), (3, 1), (4, 0)] ∧
    ¬ IsFirstMaxDeg Gcycle4 (resetColors Gcycle4.N initState) 2 := by
  refine ⟨by decide, ?_, by decide⟩
  rfl

/-- C7 (amended): for every non-empty graph, the first vertex colored by an
IDO/DSATUR run continuing from any legitimate `std::sort` output (any
degree-descending-sorted permutation of the vertex list) is an uncolored
vertex of maximum static degree — with no guarantee on which tied vertex is
taken, since `std::sort` leaves the order of tied degrees unspecified; in
particular this holds for the embedded driver itself.  The first vertex of
the RLF run and every RLF class seed — produced by
`find_max_degree_uncolored_vertex`, whose strict-`>` replacement test is
deterministic — is moreover the FIRST-encountered maximum-degree vertex among
the remaining uncolored vertices. -/
theorem C7_first_vertex_max_degree (G : Graph) (s0 : ColorState) :
    (∀ (alg : Alg) (l : List Nat), SortedByDeg G l → G.N ≠ 0 → ∃ v tl,
      (generic_greedy_on alg G s0 l).trace = (v, 0) :: tl ∧
      IsMaxDeg G (resetColors G.N s0) v) ∧
    (∀ alg : Alg, G.N ≠ 0 → ∃ v tl,
      (generic_greedy_coloring alg G s0).trace = (v, 0) :: tl ∧
      IsMaxDeg G (resetColors G.N s0) v) ∧
    (G.N ≠ 0 → ∃ v tl,
      (RLF_coloring G s0).trace = (v, 0) :: tl ∧
      IsFirstMaxDeg G (resetColors G.N s0) v) ∧
    (∀ (s : ColorState) (v : Nat),
      find_max_degree_uncolored_vertex G s = some v → IsFirstMaxDeg G s v) := by
  have hgen : ∀ (alg : Alg) (l : List Nat), SortedByDeg G l → G.N ≠ 0 → ∃ v tl,
      (generic_greedy_on alg G s0 l).trace = (v, 0) :: tl ∧
      IsMaxDeg G (resetColors G.N s0) v := by
    intro alg l hsd hN
    obtain ⟨hperm, hsorted⟩ := hsd
    cases l with
    | nil =>
      exfalso
      have hlen := hperm.length_eq
      simp [vertexList] at hlen
      omega
    | cons init restSorted =>
      have hout := generic_on_main alg G s0 init restSorted hperm
      obtain ⟨tl, htl⟩ := hout.traceExt
      rw [List.singleton_append] at htl
      exact ⟨init, tl, htl, head_isMaxDeg G s0 init restSorted ⟨hperm, hsorted⟩⟩
  refine ⟨hgen, ?_, ?_, fun s v h => find_max_degree_isFirstMax G s v h⟩
  · intro alg hN
    have h := hgen alg _ (sortedByDeg_insertionSort G) hN
    rw [← generic_on_insertionSort alg G s0] at h
    exact h
  · intro hN
    obtain ⟨vi, tl, hfind, htr⟩ := (RLF_main G s0).seed (by omega)
    rw [List.nil_append] at htr
    refine ⟨vi, tl, ?_, find_max_degree_isFirstMax G _ vi hfind⟩
    rw [htr]
    simp

/-- C7 witness: the path 1-2-3, whose unique maximum-degree vertex is 2;
`[2, 1, 3]` is a degree-sorted order of its vertices. -/
theorem C7_first_vertex_max_degree_witness :
    SortedByDeg Gpath3 [2, 1, 3] ∧ Gpath3.N ≠ 0 ∧
    (∃ v tl, (generic_greedy_on Alg.IDO Gpath3 initState [2, 1, 3]).trace =
        (v, 0) :: tl ∧ IsMaxDeg Gpath3 (resetColors Gpath3.N initState) v) ∧
    (∃ v tl, (generic_greedy_coloring Alg.IDO Gpath3 initState).trace =
        (v, 0) :: tl ∧ IsMaxDeg Gpath3 (resetColors Gpath3.N initState) v) ∧
    (∃ v tl, (RLF_coloring Gpath3 initState).trace = (v, 0) :: tl ∧
      IsFirstMaxDeg Gpath3 (resetColors Gpath3.N initState) v) :=
  ⟨by decide, by decide,
    (C7_first_vertex_max_degree Gpath3 initState).1 Alg.IDO [2, 1, 3]
      (by decide) (by decide),
    (C7_first_vertex_max_degree Gpath3 initState).2.1 Alg.IDO (by decide),
    (C7_first_vertex_max_degree Gpath3 initState).2.2.1 (by decide)⟩

/-- C8: running the same driver twice in sequence on the same graph yields an
identical per-vertex coloring and identical color count: each driver resets
all vertex colors at entry, so the second run — started from the exact state
the first run left behind — produces the same result. -/
theorem C8_rerun_identical (G : Graph) (hwf : WellFormed G) (s0 : ColorState) :
    (∀ alg : Alg,
      (generic_greedy_coloring alg G
          (generic_greedy_coloring alg G s0).state).count =
        (generic_greedy_coloring alg G s0).count ∧
      colorList G (generic_greedy_coloring alg G
          (generic_greedy_coloring alg G s0).state).state =
        colorList G (generic_greedy_coloring alg G s0).state) ∧
    (RLF_coloring G (RLF_coloring G s0).state).count = (RLF_coloring G s0).count ∧
    colorList G (RLF_coloring G (RLF_coloring G s0).state).state =
      colorList G (RLF_coloring G s0).state := by
  constructor
  · intro alg
    obtain ⟨h1, _, _, _, h5⟩ :=
      generic_sim alg G hwf (generic_greedy_coloring alg G s0).state s0
    exact ⟨h1, h5⟩
  · obtain ⟨h1, _, _, h4⟩ := RLF_sim G (RLF_coloring G s0).state s0
    exact ⟨h1, h4⟩

/-- C8 witness: rerun identity on the triangle. -/
theorem C8_rerun_identical_witness :
    WellFormed Gtriangle ∧
    (IDO_coloring Gtriangle (IDO_coloring Gtriangle initState).state).count =
      (IDO_coloring Gtriangle initState).count ∧
    (RLF_coloring Gtriangle (RLF_coloring Gtriangle initState).state).count =
      (RLF_coloring Gtriangle initState).count :=
  ⟨by decide,
    ((C8_rerun_identical Gtriangle (by decide) initState).1 Alg.IDO).1,
    (C8_rerun_identical Gtriangle (by decide) initState).2.1⟩

/-- C10: for every driver, the resulting coloring, color count and
assignment trace are independent of the initial contents of the
`heuristic_value` fields: two runs started from states that differ only in
those fields (equal `color` fields) produce identical results, because every
selection step recomputes the heuristic value of a vertex before comparing
it. -/
theorem C10_heuristic_independence (G : Graph) (hwf : WellFormed G)
    (s0 t0 : ColorState) (hcol : s0.color = t0.color) :
    (∀ alg : Alg,
      (generic_greedy_coloring alg G s0).count =
        (generic_greedy_coloring alg G t0).count ∧
      colorList G (generic_greedy_coloring alg G s0).state =
        colorList G (generic_greedy_coloring alg G t0).state ∧
      (generic_greedy_coloring alg G s0).trace =
        (generic_greedy_coloring alg G t0).trace) ∧
    (RLF_coloring G s0).count = (RLF_coloring G t0).count ∧
    colorList G (RLF_coloring G s0).state = colorList G (RLF_coloring G t0).state ∧
    (RLF_coloring G s0).trace = (RLF_coloring G t0).trace := by
  constructor
  · intro alg
    obtain ⟨h1, _, h3, _, h5⟩ := generic_sim alg G hwf s0 t0
    exact ⟨h1, h5, h3⟩
  · obtain ⟨h1, h2, _, h4⟩ := RLF_sim G s0 t0
    exact ⟨h1, h4, h2⟩

/-- C2 witness: complete coloring and full-length trace on the triangle. -/
theorem C2_termination_witness :
    AllColored Gtriangle (IDO_coloring Gtriangle initState).state ∧
    (RLF_coloring Gtriangle initState).trace.length = Gtriangle.N :=
  ⟨((C2_termination Gtriangle initState).1 Alg.IDO).1,
    (C2_termination Gtriangle initState).2.2⟩

/-- C6 witness: the palette of an IDO run on the triangle is [0, 1, 2], and
color 2 is indeed used by the RLF run. -/
theorem C6_palette_range_witness :
    (IDO_coloring Gtriangle initState).palette =
      (List.range' 0 (IDO_coloring Gtriangle initState).count).map
        (fun n : Nat => (n : Int)) ∧
    (∃ i ∈ vertexList Gtriangle, (RLF_coloring Gtriangle initState).state.color i = 2) :=
  ⟨((C6_palette_range Gtriangle initState).1 Alg.IDO).2.1,
    ((C6_palette_range Gtriangle initState).2 2).2 ⟨by decide, by decide⟩⟩

/-- C9 witness: no warning on the triangle. -/
theorem C9_no_warning_witness :
    (DSATUR_coloring Gtriangle initState).warned = false ∧
    (RLF_coloring Gtriangle initState).warned = false :=
  ⟨(C9_no_warning Gtriangle initState).1 Alg.DSATUR,
    (C9_no_warning Gtriangle initState).2⟩

/-- C10 witness: two initial states with equal colors but different
heuristic-field garbage give identical results on the triangle. -/
theorem C10_heuristic_independence_witness :
    WellFormed Gtriangle ∧ initState.color = altHeurState.color ∧
    (IDO_coloring Gtriangle initState).count =
      (IDO_coloring Gtriangle altHeurState).count ∧
    (RLF_coloring Gtriangle initState).count =
      (RLF_coloring Gtriangle altHeurState).count :=
  ⟨by decide, rfl,
    ((C10_heuristic_independence Gtriangle (by decide) initState altHeurState rfl).1
      Alg.IDO).1,
    (C10_heuristic_independence Gtriangle (by decide) initState altHeurState rfl).2.1⟩

end GraphColoring
